import Mathlib

/-!
A verification development for `ladders.py`, a symbolic calculator for
multimode bosonic ladder operators.  The Python code manipulates plain
strings and dictionaries; we embed it shallowly:

* Python strings become `List Char` (`Str`), and each string operation used
  by the source (`find`, slicing, `split`, `strip`, `replace("__","_")`,
  `endswith`/`startswith`) is translated as an executable function on
  `List Char`.
* Python dicts (term string -> complex coefficient) become association
  lists in insertion order (`Dict`), with the source's access patterns
  (`key in d`, `d[k] += v`, `d[k] = v`) translated literally.
* Python `complex` coefficients become exact Gaussian rationals `CC`
  (floating-point rounding and the special values inf/nan are not
  modelled; every coefficient arising in the claims is an exact small
  rational, and the special values cannot reach `complex()` here because
  their letters are parsed as operator characters).
* Code that can raise (`complex()` on a bad literal, the `assert` and
  `list.remove("")` in `split_modes`, `single_mode_term[0]` on an empty
  string) returns `Option`, with `none` for the raising path.
* The recursion of `normal_ordering` is not structurally decreasing on
  raw strings, so it takes an explicit fuel argument and returns `none`
  when the fuel runs out; termination theorems below show that on
  single-mode token strings a quadratic amount of fuel always suffices,
  so `some`-results are statements about the real (unfueled) program.
-/

namespace Ladders

/-- Python strings, as lists of characters. -/
abbrev Str := List Char

/-- Exact complex numbers `(re + im·i) / den`, standing in for Python's
`complex`.  The representation is an unreduced fraction with integer
numerators and a common positive denominator (a power of ten, coming from
decimal literals), so all arithmetic is exact integer arithmetic and
kernel-computable; floating-point rounding is not modelled.  The engine
itself never branches on a coefficient, only on term-string keys, so the
choice of representation cannot change any control flow. -/
structure CC where
  re : Int
  im : Int
  den : Nat
deriving DecidableEq

instance : Add CC :=
  ⟨fun a b => ⟨a.re * b.den + b.re * a.den, a.im * b.den + b.im * a.den, a.den * b.den⟩⟩

instance : Mul CC :=
  ⟨fun a b => ⟨a.re * b.re - a.im * b.im, a.re * b.im + a.im * b.re, a.den * b.den⟩⟩

/-- The integer 1 used by the source as a default coefficient. -/
def oneCC : CC := ⟨1, 0, 1⟩

instance : Inhabited CC := ⟨oneCC⟩

/-- An expression dictionary: term-string keys with complex coefficients,
kept in Python-dict insertion order. -/
abbrev Dict := List (Str × CC)

/-- Python `key in dict`. -/
def keyIn (d : Dict) (k : Str) : Bool :=
  d.any (fun kv => kv.1 == k)

/-- Python `dict[key] += value` for a key already present: bump the stored
value at its place. -/
def bumpFirst : Dict → Str → CC → Dict
  | [], _, _ => []
  | kv :: rest, k, v =>
      if kv.1 == k then (kv.1, kv.2 + v) :: rest else kv :: bumpFirst rest k v

/-- Python `dict[key] = value`: overwrite in place, or append a new entry. -/
def setFirst : Dict → Str → CC → Dict
  | [], k, v => [(k, v)]
  | kv :: rest, k, v =>
      if kv.1 == k then (k, v) :: rest else kv :: setFirst rest k v

/-- `Expression.add_expr_dicts` (ladders.py:328-344): merge `dict2` into
`dict1`, adding coefficients on shared keys. -/
def add_expr_dicts (dict1 dict2 : Dict) : Dict :=
  dict2.foldl
    (fun d kv => if keyIn d kv.1 then bumpFirst d kv.1 kv.2 else d ++ [(kv.1, kv.2)])
    dict1

/-- `pat` is a prefix of `s`. -/
def isPre : Str → Str → Bool
  | [], _ => true
  | _ :: _, [] => false
  | a :: as, b :: bs => a == b && isPre as bs

/-- Python `s.find(sub)` (leftmost occurrence; `none` for `-1`). -/
def findSub (s pat : Str) : Option Nat :=
  if isPre pat s then some 0
  else
    match s with
    | [] => none
    | _ :: rest => (findSub rest pat).map (fun n => n + 1)

/-- Python `s.replace("__", "_")`: collapse double underscores, scanning
left to right past each replacement. -/
def collapseUU : Str → Str
  | [] => []
  | [c] => [c]
  | c1 :: c2 :: rest =>
      if c1 == '_' && c2 == '_' then '_' :: collapseUU rest
      else c1 :: collapseUU (c2 :: rest)

/-- No occurrence of a double underscore (so `collapseUU` is the
identity). -/
def noUU : Str → Bool
  | [] => true
  | [_] => true
  | c1 :: c2 :: rest => !(c1 == '_' && c2 == '_') && noUU (c2 :: rest)

/-- `Expression.clean_string` (ladders.py:314-326): drop one trailing and
one leading underscore, then collapse double underscores. -/
def clean_string (term_string : Str) : Str :=
  let t1 := if term_string.getLast? == some '_' then term_string.dropLast else term_string
  let t2 := if t1.head? == some '_' then t1.tail else t1
  collapseUU t2

/-- Python `s.split("(+)")`. -/
def splitPlus : Str → List Str
  | '(' :: '+' :: ')' :: rest => [] :: splitPlus rest
  | c :: rest =>
      match splitPlus rest with
      | [] => [[c]]
      | t :: ts => (c :: t) :: ts
  | [] => [[]]

/-- Python `s.split("_")`. -/
def pySplitU : Str → List Str
  | [] => [[]]
  | c :: rest =>
      if c == '_' then [] :: pySplitU rest
      else
        match pySplitU rest with
        | [] => [[c]]
        | t :: ts => (c :: t) :: ts

/-- Python `s.strip("_+")`. -/
def stripUP (s : Str) : Str :=
  ((s.dropWhile (fun c => c == '_' || c == '+')).reverse.dropWhile
      (fun c => c == '_' || c == '+')).reverse

/-- `Expression.find_first_alphabet_index` (ladders.py:87-98): index of the
first alphabetic character other than `'j'`, defaulting to 0. -/
def find_first_alphabet_index (term_string : Str) : Nat :=
  match term_string.findIdx? (fun c => c.isAlpha && !(c == 'j')) with
  | some i => i
  | none => 0

/-- `Expression.find_modes` (ladders.py:100-110): collect the distinct
alphabetic characters of the stripped keys in order of first appearance,
then sort.  (Note: the source never excludes the reserved letter `'j'`
here.) -/
def find_modes (expr_dict : Dict) : List Char :=
  let modes := expr_dict.foldl
    (fun modes kv =>
      (stripUP kv.1).foldl
        (fun modes c => if c.isAlpha && !(modes.contains c) then modes ++ [c] else modes)
        modes)
    []
  List.insertionSort (fun a b => a ≤ b) modes

/-! ### The model of Python's `complex()` literal parser

Only the literal syntax is modelled: optional sign, decimal digits with
single-underscore separators, optional fractional part, optional imaginary
part with suffix `j`/`J`, and — following CPython's
`complex_from_string_inner` — optional whitespace before and after the
value, one optional pair of surrounding parentheses, and optional
whitespace just inside each parenthesis.  Exponents (`e`) and the special
values (`inf`, `nan`) contain alphabetic characters other than `'j'`, so
`parse_expr_string` can never pass them to `complex()`: the letter would
have been cut off into the operator part. -/

/-- Numeric value of a digit character. -/
def digitVal (c : Char) : Nat := c.toNat - 48

/-- Consume a run of decimal digits, allowing a single `'_'` between two
digits (Python numeric-literal underscores).  Returns the accumulated
value, the digit count, and the rest. -/
def digitRun : Nat → Nat → Str → Nat × Nat × Str
  | acc, cnt, '_' :: c :: rest =>
      if c.isDigit then digitRun (10 * acc + digitVal c) (cnt + 1) rest
      else (acc, cnt, '_' :: c :: rest)
  | acc, cnt, c :: rest =>
      if c.isDigit then digitRun (10 * acc + digitVal c) (cnt + 1) rest
      else (acc, cnt, c :: rest)
  | acc, cnt, [] => (acc, cnt, [])

/-- An unsigned digit string (at least one digit, no leading underscore). -/
def parseUDigits (s : Str) : Option (Nat × Nat × Str) :=
  match s with
  | c :: rest => if c.isDigit then some (digitRun (digitVal c) 1 rest) else none
  | [] => none

/-- An unsigned decimal number as an exact fraction `num / den` (with
`den` a power of ten): `digits`, `digits.`, `digits.digits`, or
`.digits`. -/
def parseUFloat (s : Str) : Option ((Nat × Nat) × Str) :=
  match s with
  | '.' :: rest =>
      (parseUDigits rest).map (fun r => ((r.1, 10 ^ r.2.1), r.2.2))
  | _ =>
      (parseUDigits s).bind (fun r =>
        match r.2.2 with
        | '.' :: rest2 =>
            match parseUDigits rest2 with
            | some r2 => some ((r.1 * 10 ^ r2.2.1 + r2.1, 10 ^ r2.2.1), r2.2.2)
            | none => some ((r.1, 1), rest2)
        | rest2 => some ((r.1, 1), rest2))

/-- An optional leading sign, as an integer factor. -/
def parseSign (s : Str) : Int × Str :=
  match s with
  | '+' :: rest => (1, rest)
  | '-' :: rest => (-1, rest)
  | _ => (1, s)

/-- A purely real complex value `sg·n / d`. -/
def mkReal (sg : Int) (nd : Nat × Nat) : CC := ⟨sg * nd.1, 0, nd.2⟩

/-- A purely imaginary complex value `(sg·n / d)·i`. -/
def mkImag (sg : Int) (nd : Nat × Nat) : CC := ⟨0, sg * nd.1, nd.2⟩

/-- A complex value `sg1·n1/d1 + (sg2·n2/d2)·i` over the common
denominator `d1·d2`. -/
def mkComplex (sg1 : Int) (nd1 : Nat × Nat) (sg2 : Int) (nd2 : Nat × Nat) : CC :=
  ⟨sg1 * nd1.1 * nd2.2, sg2 * nd2.1 * nd1.2, nd1.2 * nd2.2⟩

/-- The body of a complex literal (after stripping whitespace/parens):
`[sign] j`, `[sign] float [j]`, or `[sign] float sign [float] j`. -/
def parseComplexCore (s : Str) : Option (CC × Str) :=
  let sg := parseSign s
  match sg.2 with
  | 'j' :: rest => some (mkImag sg.1 (1, 1), rest)
  | 'J' :: rest => some (mkImag sg.1 (1, 1), rest)
  | s1 =>
    (parseUFloat s1).bind (fun fr =>
      match fr.2 with
      | 'j' :: rest => some (mkImag sg.1 fr.1, rest)
      | 'J' :: rest => some (mkImag sg.1 fr.1, rest)
      | c :: rest2 =>
          if c == '+' || c == '-' then
            let sg2 : Int := if c == '-' then -1 else 1
            match rest2 with
            | 'j' :: rest3 => some (mkComplex sg.1 fr.1 sg2 (1, 1), rest3)
            | 'J' :: rest3 => some (mkComplex sg.1 fr.1 sg2 (1, 1), rest3)
            | _ =>
                (parseUFloat rest2).bind (fun fr2 =>
                  match fr2.2 with
                  | 'j' :: rest3 => some (mkComplex sg.1 fr.1 sg2 fr2.1, rest3)
                  | 'J' :: rest3 => some (mkComplex sg.1 fr.1 sg2 fr2.1, rest3)
                  | _ => none)
          else some (mkReal sg.1 fr.1, c :: rest2)
      | [] => some (mkReal sg.1 fr.1, []))

/-- The ASCII whitespace characters CPython's `Py_ISSPACE` accepts around
a `complex()` literal: space, tab, newline, vertical tab, form feed,
carriage return. -/
def pyIsSpace (c : Char) : Bool :=
  c == ' ' || c == '\t' || c == '\n' || c == '\x0b' || c == '\x0c' || c == '\r'

/-- Python `complex(s)` (CPython `complex_from_string_inner`): skip
leading whitespace; on an opening parenthesis, skip whitespace again,
parse the body, skip whitespace, require the closing parenthesis, and
allow only trailing whitespace; without a parenthesis, parse the body and
allow only trailing whitespace.  `none` models the `ValueError` raised on
an invalid literal. -/
def pyComplex (s : Str) : Option CC :=
  match s.dropWhile pyIsSpace with
  | '(' :: rest =>
      match parseComplexCore (rest.dropWhile pyIsSpace) with
      | some r =>
          match r.2.dropWhile pyIsSpace with
          | ')' :: rest2 => if rest2.dropWhile pyIsSpace == [] then some r.1 else none
          | _ => none
      | none => none
  | t =>
      match parseComplexCore t with
      | some r => if r.2.dropWhile pyIsSpace == [] then some r.1 else none
      | none => none

/-- One iteration of the parsing loop (ladders.py:75-83): cut the term at
the first non-`'j'` letter and store the operator part, with coefficient 1
when the cut is at index 0 and the `complex()`-parsed prefix otherwise. -/
def parseTerm (d : Dict) (term : Str) : Option Dict :=
  if find_first_alphabet_index term == 0 then
    some (setFirst d (term.drop (find_first_alphabet_index term)) oneCC)
  else
    (pyComplex (term.take (find_first_alphabet_index term))).map
      (fun c => setFirst d (term.drop (find_first_alphabet_index term)) c)

/-- `Expression.parse_expr_string` (ladders.py:63-85): split on `"(+)"`,
then run the term loop.  `none` models the `ValueError` escaping the
constructor. -/
def parse_expr_string (expr_string : Str) : Option Dict :=
  let terms := splitPlus expr_string
  if expr_string == [] then some []
  else terms.foldlM parseTerm []

/-- The `Expression` instance state: `expr_dict` and the derived `modes`. -/
structure Expression where
  expr_dict : Dict
  modes : List Char
deriving DecidableEq

/-- `Expression.__init__` (ladders.py:57-61): parse, then derive modes.
`none` models a `ValueError` escaping the constructor. -/
def Expression.ofString (expr_string : Str) : Option Expression :=
  (parse_expr_string expr_string).map (fun d => ⟨d, find_modes d⟩)

/-- `Expression("")`, used by the source to start fresh results: the empty
dict with empty modes. -/
def Expression.empty : Expression := ⟨[], []⟩

/-- `Expression.hspace_organize` (ladders.py:246-272): for each mode in
alphabetical order, copy every `"_"`-separated operator containing that
mode, appending `"_"` after each; finally drop the trailing character. -/
def hspace_organize (term_string : Str) : Str :=
  let organized := (find_modes [(term_string, oneCC)]).foldl
    (fun organized mode =>
      (pySplitU term_string).foldl
        (fun organized operator =>
          if operator.contains mode then organized ++ operator ++ ['_'] else organized)
        organized)
    []
  organized.dropLast

/-- `Expression.split_modes` (ladders.py:346-376): peel one substring per
mode off the organized string.  `none` models the `assert idx != -1`
failing or `list.remove("")` not finding an empty string. -/
def split_modes (multi_mode_string : Str) : Option (List Str) := do
  let modes := find_modes [(multi_mode_string, oneCC)]
  let st ← modes.foldlM
    (fun (st : List Str × Str) mode =>
      match findSub st.2 [mode] with
      | none => none
      | some idx =>
          some (st.1 ++ [clean_string (st.2.take idx)], clean_string (st.2.drop idx)))
    (([] : List Str), multi_mode_string)
  let splitted := st.1 ++ [clean_string st.2]
  if splitted.contains [] then some (splitted.erase []) else none

/-- `Expression.normal_ordering` (ladders.py:274-312): rewrite the leftmost
`mode_mode+` occurrence as `mode+_mode` plus the dropped pair, recursing on
both.  The fuel argument bounds the recursion depth; `none` means the fuel
ran out (the fuel needed on genuine inputs is bounded below). -/
def normal_ordering : Nat → Char → Str → CC → Option Dict
  | 0, _, _, _ => none
  | fuel + 1, mode, single_mode_term, coeff =>
    let n : Str := mode :: '+' :: '_' :: mode :: []
    let n_dag : Str := mode :: '_' :: mode :: '+' :: []
    match findSub single_mode_term n_dag with
    | none => some [(single_mode_term, coeff)]
    | some idx => do
        let left := clean_string (single_mode_term.take idx)
        let right := clean_string (single_mode_term.drop (idx + n_dag.length))
        let term_with_n := clean_string (left ++ '_' :: n ++ '_' :: right)
        let term_with_1 := clean_string (left ++ '_' :: right)
        let d1 ← normal_ordering fuel mode term_with_n coeff
        let d2 ← normal_ordering fuel mode term_with_1 coeff
        pure (add_expr_dicts d1 d2)

/-- `Expression._multiply_normal_ordered_single_mode_dicts`
(ladders.py:225-244): cross product of two per-mode dicts, concatenating
and cleaning keys, multiplying coefficients. -/
def multiply_normal_ordered_single_mode_dicts (dict1 dict2 : Dict) : Dict :=
  dict1.foldl
    (fun result p1 =>
      dict2.foldl
        (fun result p2 =>
          let new_key := clean_string (p1.1 ++ '_' :: p2.1)
          if keyIn result new_key then bumpFirst result new_key (p1.2 * p2.2)
          else result ++ [(new_key, p1.2 * p2.2)])
        result)
    []

/-- `Expression.multiply` (ladders.py:137-220): expand the product term by
term; organize, split by mode, normal order each part, recombine, scale,
and merge.  `none` models an exception (from `split_modes` or
`single_mode_term[0]`) or exhausted fuel. -/
def Expression.multiply (self other_expr : Expression) (fuel : Nat) : Option Expression := do
  let modes := List.insertionSort (fun a b => a ≤ b) (self.modes ++ other_expr.modes).dedup
  let result_dict ← self.expr_dict.foldlM
    (fun result_dict p1 =>
      other_expr.expr_dict.foldlM
        (fun result_dict (p2 : Str × CC) => do
          let hspace_organized_term := hspace_organize (p1.1 ++ '_' :: p2.1)
          if p1.1 == ([] : Str) && p2.1 == ([] : Str) then
            pure (add_expr_dicts result_dict [([], p1.2 * p2.2)])
          else do
            let parts ← split_modes hspace_organized_term
            let temp ← parts.foldlM
              (fun (temp : Dict) single_mode_term => do
                let mode ← single_mode_term.head?
                let d ← normal_ordering fuel mode single_mode_term oneCC
                pure (if temp == ([] : Dict) then d
                      else multiply_normal_ordered_single_mode_dicts temp d))
              ([] : Dict)
            let overall_coeff := p1.2 * p2.2
            let temp := temp.map (fun kv => (kv.1, kv.2 * overall_coeff))
            pure (add_expr_dicts result_dict temp))
        result_dict)
    []
  pure ⟨result_dict, modes⟩

/-- `Expression.add` (ladders.py:112-132): key-wise union into a fresh
`Expression("")`, summing coefficients on shared keys, then recompute
modes. -/
def Expression.add (self expr2 : Expression) : Expression :=
  let d := self.expr_dict.foldl (fun d kv => setFirst d kv.1 kv.2) Expression.empty.expr_dict
  let d := expr2.expr_dict.foldl
    (fun d kv => if keyIn d kv.1 then bumpFirst d kv.1 kv.2 else setFirst d kv.1 kv.2)
    d
  ⟨d, find_modes d⟩

/-- Module-level `add` (ladders.py:391-408); its body is identical to the
method `Expression.add`. -/
def add (expr1 expr2 : Expression) : Expression :=
  let d := expr1.expr_dict.foldl (fun d kv => setFirst d kv.1 kv.2) Expression.empty.expr_dict
  let d := expr2.expr_dict.foldl
    (fun d kv => if keyIn d kv.1 then bumpFirst d kv.1 kv.2 else setFirst d kv.1 kv.2)
    d
  ⟨d, find_modes d⟩

/-- Module-level `power` (ladders.py:410-426): deep-copy, then multiply
`exponent - 1` times (no multiplication at all for `exponent <= 1`). -/
def power (expr : Expression) (exponent : Nat) (fuel : Nat) : Option Expression :=
  (List.range (exponent - 1)).foldlM (fun result _ => result.multiply expr fuel) expr

/-- Module-level `scalar_multiply` (ladders.py:429-440): fresh
`Expression("")` whose dict has every coefficient multiplied by the scalar.
The source never recomputes `modes`, so the result keeps the empty mode
list of `Expression("")`. -/
def scalar_multiply (expr : Expression) (scalar : CC) : Expression :=
  let result := Expression.empty
  ⟨expr.expr_dict.foldl (fun d kv => setFirst d kv.1 (kv.2 * scalar)) result.expr_dict,
   result.modes⟩

/-- Python `dict.get(key)`: the stored coefficient, if the key is present. -/
def dictGet : Dict → Str → Option CC
  | [], _ => none
  | kv :: rest, k => if kv.1 == k then some kv.2 else dictGet rest k

/-! ### Token sequences and their serialization

The data model of the source: a term is an ordered sequence of ladder
operator tokens, one mode letter each, with a trailing `'+'` marking a
creation operator, serialized with `'_'` between tokens.  These
definitions name that serialization so that theorems can quantify over
genuine token sequences. -/

/-- The text of one operator token of mode `m`: `m+` for a creation
operator, `m` for an annihilation operator. -/
def tokStr (m : Char) (cre : Bool) : Str :=
  if cre then [m, '+'] else [m]

/-- A single-mode token sequence of mode `m`, serialized with `'_'`
separators (`true` = creation, `false` = annihilation). -/
def serial (m : Char) : List Bool → Str
  | [] => []
  | [b] => tokStr m b
  | b :: rest => tokStr m b ++ '_' :: serial m rest

/-- A multi-mode operator token: mode letter plus creation flag. -/
abbrev Tok := Char × Bool

/-- The text of a multi-mode token. -/
def tokStrM (t : Tok) : Str := tokStr t.1 t.2

/-- A multi-mode token sequence, serialized with `'_'` separators.  The
empty sequence serializes to the empty (constant) key. -/
def serialM : List Tok → Str
  | [] => []
  | [t] => tokStrM t
  | t :: rest => tokStrM t ++ '_' :: serialM rest

/-- The number of out-of-order pairs (an annihilation operator anywhere
before a creation operator) in a single-mode token sequence: the
termination measure of `normal_ordering`. -/
def invCount : List Bool → Nat
  | [] => 0
  | false :: rest => rest.count true + invCount rest
  | true :: rest => invCount rest

/-- The index of the leftmost adjacent pair `annihilation, creation` (the
`n_dag` pattern of `normal_ordering`) in a single-mode token sequence. -/
def firstD : List Bool → Option Nat
  | false :: true :: _ => some 0
  | _ :: rest => (firstD rest).map (fun n => n + 1)
  | [] => none

/-- A term key is well formed when it is the serialization of a token
sequence over alphabetic mode letters (the empty sequence giving the
constant key `""`). -/
def WFkey (k : Str) : Prop :=
  ∃ ts : List Tok, (∀ t ∈ ts, t.1.isAlpha = true) ∧ k = serialM ts

/-- An `Expression` is well formed when every key of its dictionary is. -/
def WFexpr (e : Expression) : Prop :=
  ∀ kv ∈ e.expr_dict, WFkey kv.1

/-- Total length of all keys of an expression: used to bound the fuel
needed by `Expression.multiply`. -/
def keyLenSum (e : Expression) : Nat :=
  (e.expr_dict.map (fun kv => kv.1.length)).sum

/-- A fuel bound sufficient for every `normal_ordering` call made while
multiplying two well-formed expressions. -/
def fuelBound (e1 e2 : Expression) : Nat :=
  (keyLenSum e1 + keyLenSum e2) * (keyLenSum e1 + keyLenSum e2) + 1

/-- The body of the inner loop over `splitted_expressions` in
`Expression.multiply` (ladders.py:186-198), named so that theorems about
the loop can refer to it.  It is definitionally the step function folded
over `parts` inside `Expression.multiply`. -/
def partsStep (fuel : Nat) (temp : Dict) (single_mode_term : Str) : Option Dict :=
  single_mode_term.head?.bind
    (fun mode =>
      (normal_ordering fuel mode single_mode_term oneCC).bind
        (fun d =>
          some (if temp == ([] : Dict) then d
                else multiply_normal_ordered_single_mode_dicts temp d)))

/-- The body of the loop over term pairs in `Expression.multiply`
(ladders.py:158-211), named so that theorems about the loop can refer to
it.  It is definitionally the step function folded over the pairs of
terms inside `Expression.multiply`. -/
def pairStep (fuel : Nat) (p1 : Str × CC) (result_dict : Dict) (p2 : Str × CC) :
    Option Dict :=
  if p1.1 == ([] : Str) && p2.1 == ([] : Str) then
    some (add_expr_dicts result_dict [([], p1.2 * p2.2)])
  else
    (split_modes (hspace_organize (p1.1 ++ '_' :: p2.1))).bind
      (fun parts =>
        (parts.foldlM (partsStep fuel) ([] : Dict)).bind
          (fun temp =>
            some (add_expr_dicts result_dict
              (temp.map (fun kv => (kv.1, kv.2 * (p1.2 * p2.2)))))))

/-- The tokens of `ts`, regrouped mode by mode in the order of `modes`:
the token sequence whose serialization `hspace_organize` produces. -/
def groupToks (modes : List Char) (ts : List Tok) : List Tok :=
  modes.flatMap (fun m => ts.filter (fun t => t.1 == m))

/-- The body of the peeling loop of `Expression.split_modes`
(ladders.py:355-367), named so that theorems about the loop can refer to
it.  It is definitionally the step function folded over the mode list
inside `split_modes`. -/
def splitStep (st : List Str × Str) (mode : Char) : Option (List Str × Str) :=
  match findSub st.2 [mode] with
  | none => none
  | some idx =>
      some (st.1 ++ [clean_string (st.2.take idx)], clean_string (st.2.drop idx))

/-! ### Concrete evaluations of the engine -/

/-- C1: the claim asserts that `Expression("a").multiply(Expression("a+"))`
and `add(Expression("a+").multiply(Expression("a")), Expression("1"))` both
equal `{"a+_a": 1, "": 1}`.  Evaluating the code: the product side does
equal `{"a+_a": 1, "": 1}`, but `Expression("1")` parses the bare constant
term to the key `"1"` (not the documented empty constant key), so the sum
side equals `{"a+_a": 1, "1": 1}` and the two sides differ. -/
theorem c1_commutation_check_evaluation :
    ((Expression.ofString ['a']).bind fun ea =>
        (Expression.ofString ['a', '+']).bind fun eap =>
          ea.multiply eap 10)
      = some ⟨[(['a', '+', '_', 'a'], ⟨1, 0, 1⟩), ([], ⟨1, 0, 1⟩)], ['a']⟩
    ∧ ((Expression.ofString ['a']).bind fun ea =>
        (Expression.ofString ['a', '+']).bind fun eap =>
          (Expression.ofString ['1']).bind fun e1 =>
            (eap.multiply ea 10).map fun r => add r e1)
      = some ⟨[(['a', '+', '_', 'a'], ⟨1, 0, 1⟩), (['1'], ⟨1, 0, 1⟩)], ['a']⟩
    ∧ ([(['a', '+', '_', 'a'], (⟨1, 0, 1⟩ : CC)), ([], ⟨1, 0, 1⟩)] : Dict)
        ≠ [(['a', '+', '_', 'a'], ⟨1, 0, 1⟩), (['1'], ⟨1, 0, 1⟩)] := by
  refine ⟨by decide, by decide, by decide⟩

/-- C2: `power(Expression("a+_a"), 2)` returns exactly
`{"a+_a+_a_a": 1, "a+_a": 1}` (and the mode list `["a"]`). -/
theorem c2_power_number_operator_squared :
    (Expression.ofString ['a', '+', '_', 'a']).bind (fun e => power e 2 20)
      = some ⟨[(['a', '+', '_', 'a', '+', '_', 'a', '_', 'a'], ⟨1, 0, 1⟩),
               (['a', '+', '_', 'a'], ⟨1, 0, 1⟩)], ['a']⟩ := by
  decide

/-- C5: the claim asserts that parsing `"2a+_a(+)1"` yields
`{"a+_a": 2, "": 1}`.  Evaluating the code: the bare constant term `"1"`
is stored under the key `"1"`, so the parsed map is `{"a+_a": 2, "1": 1}`
(the mode set is `["a"]` as claimed). -/
theorem c5_parse_round_trip_evaluation :
    Expression.ofString ['2', 'a', '+', '_', 'a', '(', '+', ')', '1']
      = some ⟨[(['a', '+', '_', 'a'], ⟨2, 0, 1⟩), (['1'], ⟨1, 0, 1⟩)], ['a']⟩ := by
  decide

/-! ### Dictionary access lemmas -/

theorem dictGet_setFirst_self (d : Dict) (k : Str) (v : CC) :
    dictGet (setFirst d k v) k = some v := by
  induction d with
  | nil => simp [setFirst, dictGet]
  | cons kv rest ih =>
      by_cases h : kv.1 == k
      · simp [setFirst, h, dictGet]
      · simp [setFirst, h, dictGet, ih]

theorem dictGet_setFirst_ne (d : Dict) (k k' : Str) (v : CC) (h : k' ≠ k) :
    dictGet (setFirst d k v) k' = dictGet d k' := by
  have hkk : (k == k') = false := by
    simp [beq_iff_eq]
    exact fun he => h he.symm
  induction d with
  | nil => simp [setFirst, dictGet, hkk]
  | cons kv rest ih =>
      by_cases hk : kv.1 == k
      · have : kv.1 = k := by simpa [beq_iff_eq] using hk
        simp [setFirst, hk, dictGet, hkk, this]
      · simp [setFirst, hk, dictGet, ih]

/-! ### Lemmas about `find_first_alphabet_index` -/

theorem findIdx?_cons_zero {α : Type} (p : α → Bool) (x : α) (xs : List α) :
    List.findIdx? p (x :: xs)
      = if p x then some 0 else (List.findIdx? p xs).map (fun n => n + 1) := by
  rw [List.findIdx?_cons, List.findIdx?_succ]

theorem findIdx?_some_drop {α : Type} (p : α → Bool) :
    ∀ (l : List α) (i : Nat), List.findIdx? p l = some i →
      ∃ c rest, l.drop i = c :: rest ∧ p c = true := by
  intro l
  induction l with
  | nil => intro i h; simp [List.findIdx?_nil] at h
  | cons x xs ih =>
      intro i h
      rw [findIdx?_cons_zero] at h
      by_cases hx : p x = true
      · simp only [hx, if_true] at h
        cases h
        exact ⟨x, xs, rfl, hx⟩
      · simp only [hx, if_false, Bool.false_eq_true, Option.map_eq_some'] at h
        obtain ⟨a, ha, hai⟩ := h
        subst hai
        simpa using ih a ha

/-- If every alphabetic character of a term is `'j'`, the cut index is 0. -/
theorem ffai_eq_zero (term : Str) (h : ∀ c ∈ term, c.isAlpha = true → c = 'j') :
    find_first_alphabet_index term = 0 := by
  unfold find_first_alphabet_index
  have hnone : term.findIdx? (fun c => c.isAlpha && !(c == 'j')) = none := by
    rw [List.findIdx?_eq_none_iff]
    intro x hx
    by_cases ha : x.isAlpha = true
    · have := h x hx ha
      subst this
      simp
    · simp [ha]
  rw [hnone]

/-- When the cut index is positive, the stored key starts with an
alphabetic character other than `'j'`. -/
theorem ffai_pos_key_head (term : Str) (h : find_first_alphabet_index term ≠ 0) :
    ∃ c rest, term.drop (find_first_alphabet_index term) = c :: rest ∧
      c.isAlpha = true ∧ c ≠ 'j' := by
  rcases hf : term.findIdx? (fun c => c.isAlpha && !(c == 'j')) with _ | i
  · exfalso
    apply h
    unfold find_first_alphabet_index
    rw [hf]
  · have hidx : find_first_alphabet_index term = i := by
      unfold find_first_alphabet_index
      rw [hf]
    rw [hidx]
    obtain ⟨c, rest, hdrop, hc⟩ := findIdx?_some_drop _ term i hf
    refine ⟨c, rest, hdrop, (Bool.and_eq_true_iff.mp hc).1, ?_⟩
    have h2 := (Bool.and_eq_true_iff.mp hc).2
    intro hcj
    subst hcj
    simp at h2

/-! ### C10: bare constant terms are stored verbatim -/

theorem parseTerm_allj_self (term : Str) (d d' : Dict)
    (hall : ∀ c ∈ term, c.isAlpha = true → c = 'j')
    (hstep : parseTerm d term = some d') : dictGet d' term = some oneCC := by
  unfold parseTerm at hstep
  rw [ffai_eq_zero term hall] at hstep
  simp only [List.drop_zero, beq_self_eq_true, if_true, Option.some_inj] at hstep
  rw [← hstep]
  exact dictGet_setFirst_self d term oneCC

theorem parseTerm_keeps_allj (term t' : Str) (d d' : Dict)
    (hall : ∀ c ∈ term, c.isAlpha = true → c = 'j')
    (hd : dictGet d term = some oneCC)
    (hstep : parseTerm d t' = some d') : dictGet d' term = some oneCC := by
  unfold parseTerm at hstep
  by_cases h0 : find_first_alphabet_index t' = 0
  · rw [h0] at hstep
    simp only [List.drop_zero, beq_self_eq_true, if_true, Option.some_inj] at hstep
    rw [← hstep]
    by_cases he : t' = term
    · subst he
      exact dictGet_setFirst_self d t' oneCC
    · rw [dictGet_setFirst_ne d t' term oneCC (fun hh => he hh.symm)]
      exact hd
  · have h0' : (find_first_alphabet_index t' == 0) = false := by
      simpa [beq_iff_eq] using h0
    rw [h0'] at hstep
    simp only [Bool.false_eq_true, if_false, Option.map_eq_some'] at hstep
    obtain ⟨c, hcx, hset⟩ := hstep
    rw [← hset]
    have hne : term ≠ t'.drop (find_first_alphabet_index t') := by
      obtain ⟨ch, rest, hdrop, hca, hcj⟩ := ffai_pos_key_head t' h0
      intro he
      rw [hdrop] at he
      have : ch ∈ term := by rw [he]; exact List.mem_cons_self ch rest
      exact hcj (hall ch this hca)
    rw [dictGet_setFirst_ne d _ term c hne]
    exact hd

theorem parse_fold_allj (term : Str)
    (hall : ∀ c ∈ term, c.isAlpha = true → c = 'j') :
    ∀ (l : List Str) (d0 d : Dict), List.foldlM parseTerm d0 l = some d →
      (term ∈ l ∨ dictGet d0 term = some oneCC) → dictGet d term = some oneCC := by
  intro l
  induction l with
  | nil =>
      intro d0 d h hdisj
      simp only [List.foldlM_nil, pure, Option.some_inj] at h
      rcases hdisj with h' | h'
      · simp at h'
      · rw [← h]; exact h'
  | cons t' l' ih =>
      intro d0 d h hdisj
      rw [List.foldlM_cons] at h
      rcases hstep : parseTerm d0 t' with _ | d1
      · rw [hstep] at h; simp at h
      · rw [hstep] at h
        simp only [bind, Option.bind] at h
        rcases hdisj with h' | h'
        · rcases List.mem_cons.mp h' with he | hmem
          · subst he
            exact ih d1 d h (Or.inr (parseTerm_allj_self term d0 d1 hall hstep))
          · exact ih d1 d h (Or.inl hmem)
        · exact ih d1 d h
            (Or.inr (parseTerm_keeps_allj term t' d0 d1 hall h' hstep))

/-- C10: a term that contains no alphabetic character except `'j'` (for
example the bare constant `"1"`) is cut at index 0, so the whole term text
becomes the map key with coefficient 1; in particular
`Expression("1").expr_dict` is `{"1": 1}`, not `{"": 1}`. -/
theorem c10_bare_constant_key_is_term_text :
    (∀ (s term : Str) (d : Dict), s ≠ [] → term ∈ splitPlus s →
        (∀ c ∈ term, c.isAlpha = true → c = 'j') →
        parse_expr_string s = some d → dictGet d term = some oneCC)
    ∧ Expression.ofString ['1'] = some ⟨[(['1'], oneCC)], []⟩ := by
  constructor
  · intro s term d hs hmem hall hp
    unfold parse_expr_string at hp
    have hsf : (s == ([] : Str)) = false := by
      simpa [beq_iff_eq] using hs
    rw [hsf] at hp
    simp only [Bool.false_eq_true, if_false] at hp
    exact parse_fold_allj term hall (splitPlus s) [] d hp (Or.inl hmem)
  · decide

/-- Witness for C10 at the input `"1"`. -/
theorem c10_witness :
    (['1'] : Str) ∈ splitPlus ['1'] ∧ dictGet [(['1'], oneCC)] ['1'] = some oneCC :=
  ⟨by decide,
    c10_bare_constant_key_is_term_text.1 ['1'] ['1'] [(['1'], oneCC)]
      (by decide) (by decide) (by decide) (by decide)⟩

/-! ### C9: invalid coefficient literals reject the construction -/

theorem parse_fold_fails (term : Str)
    (hidx : find_first_alphabet_index term ≠ 0)
    (hbad : pyComplex (term.take (find_first_alphabet_index term)) = none) :
    ∀ (l : List Str) (d0 : Dict), term ∈ l → List.foldlM parseTerm d0 l = none := by
  intro l
  induction l with
  | nil => intro d0 h; simp at h
  | cons t' l' ih =>
      intro d0 hmem
      rw [List.foldlM_cons]
      rcases List.mem_cons.mp hmem with he | hmem'
      · subst he
        have hterm : parseTerm d0 term = none := by
          unfold parseTerm
          have h0 : (find_first_alphabet_index term == 0) = false := by
            simpa [beq_iff_eq] using hidx
          rw [h0]
          simp [hbad]
        rw [hterm]
        rfl
      · rcases hstep : parseTerm d0 t' with _ | d1
        · rfl
        · simp only [bind, Option.bind]
          exact ih d1 hmem'

/-- C9: if any term of the input has a nonempty coefficient prefix (the
substring before the first non-`'j'` letter) that is not a valid complex
literal, the `ValueError` raised by `complex()` escapes the constructor:
`Expression.ofString` rejects the whole construction. -/
theorem c9_invalid_coefficient_rejected (s term : Str)
    (hmem : term ∈ splitPlus s)
    (hidx : find_first_alphabet_index term ≠ 0)
    (hbad : pyComplex (term.take (find_first_alphabet_index term)) = none) :
    Expression.ofString s = none := by
  unfold Expression.ofString
  have hparse : parse_expr_string s = none := by
    unfold parse_expr_string
    have hs : s ≠ [] := by
      intro he
      subst he
      have : term = [] := by simpa [splitPlus] using hmem
      subst this
      exact hidx rfl
    have hsf : (s == ([] : Str)) = false := by simpa [beq_iff_eq] using hs
    rw [hsf]
    simp only [Bool.false_eq_true, if_false]
    exact parse_fold_fails term hidx hbad (splitPlus s) [] hmem
  rw [hparse]
  rfl

/-- Witness for C9 at the input `"+a"` (coefficient prefix `"+"`). -/
theorem c9_witness : Expression.ofString ['+', 'a'] = none :=
  c9_invalid_coefficient_rejected ['+', 'a'] ['+', 'a'] (by decide) (by decide) (by decide)

/-! ### C6: scalar multiplication -/

/-- C6: the claim asserts that `scalar_multiply(A, s)` preserves keys,
multiplies every coefficient by `s`, and keeps the mode set of `A`.
Evaluating the code: keys and coefficients behave as claimed, but the
result is built from `Expression("")` and its `modes` field is never
recomputed, so the returned mode set is always `[]` — at
`scalar_multiply(Expression("a"), 2)` it is `[]`, not `["a"]`. -/
theorem c6_scalar_multiply_evaluation :
    (∀ (e : Expression) (s : CC), (scalar_multiply e s).modes = [])
    ∧ (Expression.ofString ['a']).map (fun e => (scalar_multiply e ⟨2, 0, 1⟩, e.modes))
        = some (⟨[(['a'], ⟨2, 0, 1⟩)], []⟩, ['a']) :=
  ⟨fun _ _ => rfl, by decide⟩

/-! ### C7: the derived mode set -/

/-- One step of the character collection loop in `find_modes`. -/
theorem collect_mem (s : Str) :
    ∀ (ms : List Char) (x : Char),
      (x ∈ s.foldl
          (fun ms c => if c.isAlpha && !(ms.contains c) then ms ++ [c] else ms) ms)
        ↔ x ∈ ms ∨ (x.isAlpha = true ∧ x ∈ s) := by
  induction s with
  | nil => simp
  | cons c rest ih =>
      intro ms x
      simp only [List.foldl_cons]
      by_cases hc : (c.isAlpha && !(ms.contains c)) = true
      · rw [if_pos hc, ih]
        have hca : c.isAlpha = true := (Bool.and_eq_true_iff.mp hc).1
        simp only [List.mem_append, List.mem_cons, List.not_mem_nil, or_false]
        constructor
        · rintro ((h | h) | ⟨ha, h⟩)
          · exact Or.inl h
          · subst h; exact Or.inr ⟨hca, Or.inl rfl⟩
          · exact Or.inr ⟨ha, Or.inr h⟩
        · rintro (h | ⟨ha, h | h⟩)
          · exact Or.inl (Or.inl h)
          · subst h; exact Or.inl (Or.inr rfl)
          · exact Or.inr ⟨ha, h⟩
      · rw [if_neg hc, ih]
        have hc' : c.isAlpha = true → c ∈ ms := by
          intro ha
          by_contra hm
          apply hc
          simp [ha, hm]
        simp only [List.mem_cons]
        constructor
        · rintro (h | ⟨ha, h⟩)
          · exact Or.inl h
          · exact Or.inr ⟨ha, Or.inr h⟩
        · rintro (h | ⟨ha, h | h⟩)
          · exact Or.inl h
          · subst h; exact Or.inl (hc' ha)
          · exact Or.inr ⟨ha, h⟩

theorem collect_nodup (s : Str) :
    ∀ (ms : List Char), ms.Nodup →
      (s.foldl (fun ms c => if c.isAlpha && !(ms.contains c) then ms ++ [c] else ms)
          ms).Nodup := by
  induction s with
  | nil => intro ms h; simpa using h
  | cons c rest ih =>
      intro ms h
      simp only [List.foldl_cons]
      by_cases hc : (c.isAlpha && !(ms.contains c)) = true
      · rw [if_pos hc]
        apply ih
        have hm : c ∉ ms := by
          have := (Bool.and_eq_true_iff.mp hc).2
          simp only [Bool.not_eq_true'] at this
          simpa using this
        simp [List.nodup_append, h, hm]
      · rw [if_neg hc]
        exact ih ms h

theorem modes_fold_mem (d : Dict) :
    ∀ (ms : List Char) (x : Char),
      (x ∈ d.foldl
          (fun ms kv => (stripUP kv.1).foldl
            (fun ms c => if c.isAlpha && !(ms.contains c) then ms ++ [c] else ms) ms)
          ms)
        ↔ x ∈ ms ∨ (x.isAlpha = true ∧ ∃ kv ∈ d, x ∈ stripUP kv.1) := by
  induction d with
  | nil => simp
  | cons kv rest ih =>
      intro ms x
      simp only [List.foldl_cons]
      rw [ih, collect_mem]
      simp only [List.mem_cons]
      constructor
      · rintro ((h | ⟨ha, h⟩) | ⟨ha, kv', hm, h⟩)
        · exact Or.inl h
        · exact Or.inr ⟨ha, kv, Or.inl rfl, h⟩
        · exact Or.inr ⟨ha, kv', Or.inr hm, h⟩
      · rintro (h | ⟨ha, kv', hm | hm, h⟩)
        · exact Or.inl (Or.inl h)
        · subst hm; exact Or.inl (Or.inr ⟨ha, h⟩)
        · exact Or.inr ⟨ha, kv', hm, h⟩

theorem modes_fold_nodup (d : Dict) :
    ∀ (ms : List Char), ms.Nodup →
      (d.foldl
          (fun ms kv => (stripUP kv.1).foldl
            (fun ms c => if c.isAlpha && !(ms.contains c) then ms ++ [c] else ms) ms)
          ms).Nodup := by
  induction d with
  | nil => intro ms h; simpa using h
  | cons kv rest ih =>
      intro ms h
      simp only [List.foldl_cons]
      exact ih _ (collect_nodup _ ms h)

/-- For an alphabetic character, membership in a stripped key is the same
as membership in the key (the strip only removes `'_'` and `'+'`). -/
theorem mem_stripUP_iff (k : Str) (c : Char) (hc : c.isAlpha = true) :
    c ∈ stripUP k ↔ c ∈ k := by
  have hpc : (c == '_' || c == '+') = false := by
    rcases heq : (c == '_') with _ | _
    · rcases heq2 : (c == '+') with _ | _
      · simp
      · exfalso
        have : c = '+' := by simpa [beq_iff_eq] using heq2
        subst this
        simp at hc
    · exfalso
      have : c = '_' := by simpa [beq_iff_eq] using heq
      subst this
      simp at hc
  unfold stripUP
  constructor
  · intro h
    have h1 := (List.dropWhile_sublist (l := ((k.dropWhile (fun c => c == '_' || c == '+')).reverse))
        (fun c => c == '_' || c == '+')).subset (by simpa using h)
    have h2 : c ∈ k.dropWhile (fun c => c == '_' || c == '+') := by simpa using h1
    exact (List.dropWhile_sublist (fun c => c == '_' || c == '+')).subset h2
  · intro h
    set p := fun c : Char => c == '_' || c == '+' with hp
    have step : ∀ (l : List Char), c ∈ l → c ∈ l.dropWhile p := by
      intro l hl
      rcases List.mem_append.mp
          (by rw [List.takeWhile_append_dropWhile (p := p)]; exact hl) with h' | h'
      · exact absurd (List.mem_takeWhile_imp h') (by simp [hp, hpc])
      · exact h'
    have h1 : c ∈ (k.dropWhile p).reverse := by simpa using step k h
    simpa using step _ h1

/-- The full characterization of `find_modes`: a sorted duplicate-free
list whose members are exactly the alphabetic characters occurring in the
keys. -/
theorem find_modes_spec (d : Dict) :
    List.Sorted (fun a b => a ≤ b) (find_modes d) ∧ (find_modes d).Nodup ∧
      ∀ c, c ∈ find_modes d ↔ c.isAlpha = true ∧ ∃ kv ∈ d, c ∈ kv.1 := by
  unfold find_modes
  refine ⟨List.sorted_insertionSort _ _, ?_, ?_⟩
  · rw [(List.perm_insertionSort _ _).nodup_iff]
    exact modes_fold_nodup d [] (by simp)
  · intro c
    rw [(List.perm_insertionSort _ _).mem_iff, modes_fold_mem]
    simp only [List.not_mem_nil, false_or]
    constructor
    · rintro ⟨ha, kv, hm, h⟩
      exact ⟨ha, kv, hm, (mem_stripUP_iff kv.1 c ha).mp h⟩
    · rintro ⟨ha, kv, hm, h⟩
      exact ⟨ha, kv, hm, (mem_stripUP_iff kv.1 c ha).mpr h⟩

/-- C7 counterexample: `Expression("j")` is constructible and its derived
mode set is `["j"]`, which contains the reserved letter `'j'` — refuting
"never contains the reserved imaginary-unit letter". -/
theorem c7_counterexample_j_mode :
    Expression.ofString ['j'] = some ⟨[(['j'], oneCC)], ['j']⟩
    ∧ (Expression.ofString ['j']).map (fun e => e.modes.contains 'j') = some true := by
  refine ⟨by decide, by decide⟩

/-- C7 (amended): for every parser-constructed Expression, `modes` is the
sorted duplicate-free list of exactly the alphabetic characters of the
term keys; no exclusion of `'j'` is performed, so `'j'` appears whenever
some key contains it. -/
theorem c7_modes_characterization (s : Str) (e : Expression)
    (h : Expression.ofString s = some e) :
    List.Sorted (fun a b => a ≤ b) e.modes ∧ e.modes.Nodup ∧
      ∀ c, c ∈ e.modes ↔ c.isAlpha = true ∧ ∃ kv ∈ e.expr_dict, c ∈ kv.1 := by
  unfold Expression.ofString at h
  rcases hp : parse_expr_string s with _ | d
  · rw [hp] at h; simp at h
  · rw [hp] at h
    simp only [Option.map_some', Option.some_inj] at h
    rw [← h]
    exact find_modes_spec d

/-- Witness for C7's amended theorem at the input `"a"`. -/
theorem c7_witness :
    Expression.ofString ['a'] = some ⟨[(['a'], oneCC)], ['a']⟩
    ∧ List.Sorted (fun a b => a ≤ b) (['a'] : List Char)
    ∧ (['a'] : List Char).Nodup := by
  have h := c7_modes_characterization ['a'] ⟨[(['a'], oneCC)], ['a']⟩ (by decide)
  exact ⟨by decide, h.1, h.2.1⟩

/-! ### Structure of serialized token sequences -/

theorem alpha_ne_underscore {m : Char} (hm : m.isAlpha = true) : m ≠ '_' := by
  intro h
  subst h
  exact absurd hm (by decide)

theorem alpha_ne_plus {m : Char} (hm : m.isAlpha = true) : m ≠ '+' := by
  intro h
  subst h
  exact absurd hm (by decide)

theorem serial_cons (m : Char) (b : Bool) (rest : List Bool) (h : rest ≠ []) :
    serial m (b :: rest) = tokStr m b ++ '_' :: serial m rest := by
  cases rest with
  | nil => exact absurd rfl h
  | cons x xs => rfl

theorem serial_ne_nil (m : Char) (t : List Bool) (h : t ≠ []) : serial m t ≠ [] := by
  cases t with
  | nil => exact absurd rfl h
  | cons b rest =>
      cases rest with
      | nil => cases b <;> simp [serial, tokStr]
      | cons x xs => cases b <;> simp [serial, tokStr]

theorem serial_head (m : Char) (t : List Bool) (h : t ≠ []) :
    ∃ r, serial m t = m :: r := by
  cases t with
  | nil => exact absurd rfl h
  | cons b rest =>
      cases rest with
      | nil => cases b <;> exact ⟨_, rfl⟩
      | cons x xs => cases b <;> exact ⟨_, rfl⟩

theorem serial_getLast (m : Char) (hm : m.isAlpha = true) (t : List Bool) :
    (serial m t).getLast? ≠ some '_' := by
  induction t with
  | nil => simp [serial]
  | cons b rest ih =>
      cases rest with
      | nil =>
          cases b <;> simp [serial, tokStr] <;>
            exact fun h => alpha_ne_underscore hm h
      | cons x xs =>
          rw [serial_cons m b (x :: xs) (by simp)]
          rw [List.getLast?_append]
          have hne := serial_ne_nil m (x :: xs) (by simp)
          rcases hr : serial m (x :: xs) with _ | ⟨c, cs⟩
          · exact absurd hr hne
          · rw [hr] at ih
            simpa [Option.or] using ih

theorem noUU_cons₂ (c1 c2 : Char) (rest : Str) :
    noUU (c1 :: c2 :: rest) = (!(c1 == '_' && c2 == '_') && noUU (c2 :: rest)) := rfl

theorem getLast?_cons_ne (c : Char) (l : Str) (h : l ≠ []) :
    (c :: l).getLast? = l.getLast? := by
  cases l with
  | nil => exact absurd rfl h
  | cons x xs => exact List.getLast?_cons_cons

/-- `clean_string` with its let bindings inlined. -/
theorem clean_string_eq (X : Str) :
    clean_string X = collapseUU
      (if (if X.getLast? == some '_' then X.dropLast else X).head? == some '_'
       then (if X.getLast? == some '_' then X.dropLast else X).tail
       else (if X.getLast? == some '_' then X.dropLast else X)) := rfl

theorem serial_noUU (m : Char) (hm : m.isAlpha = true) (t : List Bool) :
    noUU (serial m t) = true := by
  have hmu : (m == '_') = false := by
    simpa [beq_iff_eq] using alpha_ne_underscore hm
  have hpu : (('+' : Char) == '_') = false := by decide
  have huu : (('_' : Char) == '_') = true := by decide
  induction t with
  | nil => simp [serial, noUU]
  | cons b rest ih =>
      cases rest with
      | nil => cases b <;> simp [serial, tokStr, noUU, hmu]
      | cons x xs =>
          obtain ⟨r, hr⟩ := serial_head m (x :: xs) (by simp)
          rw [serial_cons m b (x :: xs) (by simp), hr]
          rw [hr] at ih
          cases b
          · show noUU (m :: '_' :: m :: r) = true
            rw [noUU_cons₂, noUU_cons₂]
            simp [hmu, huu, ih]
          · show noUU (m :: '+' :: '_' :: m :: r) = true
            rw [noUU_cons₂, noUU_cons₂, noUU_cons₂]
            simp [hmu, hpu, huu, ih]

theorem noUU_append_left : ∀ (a b : Str), noUU (a ++ b) = true → noUU a = true := by
  intro a
  induction a with
  | nil => intro b _; rfl
  | cons c1 a' ih =>
      intro b h
      cases a' with
      | nil => rfl
      | cons c2 rest =>
          rw [List.cons_append] at h
          rw [List.cons_append] at h
          rw [noUU_cons₂] at h
          have h1 := (Bool.and_eq_true_iff.mp h).1
          have h2 := (Bool.and_eq_true_iff.mp h).2
          rw [noUU_cons₂]
          rw [h1]
          have := ih b (by rw [List.cons_append]; exact h2)
          rw [this]
          rfl

theorem noUU_take (s : Str) (n : Nat) (h : noUU s = true) : noUU (s.take n) = true :=
  noUU_append_left (s.take n) (s.drop n) (by rw [List.take_append_drop]; exact h)

theorem collapseUU_eq_self : ∀ (s : Str), noUU s = true → collapseUU s = s := by
  intro s
  induction s with
  | nil => intro _; rfl
  | cons c1 rest ih =>
      cases rest with
      | nil => intro _; rfl
      | cons c2 rest2 =>
          intro h
          rw [noUU_cons₂] at h
          have h1 := (Bool.and_eq_true_iff.mp h).1
          have h2 := (Bool.and_eq_true_iff.mp h).2
          show (if c1 == '_' && c2 == '_' then '_' :: collapseUU rest2
                else c1 :: collapseUU (c2 :: rest2)) = c1 :: c2 :: rest2
          rw [if_neg (by simp only [Bool.not_eq_true'] at h1; simp [h1])]
          rw [ih h2]

/-- On a string with no double underscore and not starting with one,
`clean_string` only strips a trailing underscore. -/
theorem clean_string_of_clean (X : Str) (hh : X.head? ≠ some '_') (hn : noUU X = true) :
    clean_string X = if X.getLast? == some '_' then X.dropLast else X := by
  rw [clean_string_eq]
  by_cases hl : (X.getLast? == some '_') = true
  · rw [if_pos hl]
    have hdH : X.dropLast.head? ≠ some '_' := by
      cases X with
      | nil => simp
      | cons x xs =>
          cases xs with
          | nil => simp
          | cons y ys =>
              rw [show (x :: y :: ys).dropLast = x :: (y :: ys).dropLast from rfl]
              simpa using hh
    rw [if_neg (by simpa using hdH)]
    apply collapseUU_eq_self
    have hXne : X ≠ [] := by
      intro he
      rw [he] at hl
      simp at hl
    exact noUU_append_left _ _
      (by rw [List.dropLast_append_getLast hXne]; exact hn)
  · rw [if_neg hl, if_neg (by simpa using hh)]
    exact collapseUU_eq_self X hn

/-- `clean_string` of a serialized sequence is itself. -/
theorem clean_serial (m : Char) (hm : m.isAlpha = true) (t : List Bool) :
    clean_string (serial m t) = serial m t := by
  cases t with
  | nil => rfl
  | cons b rest =>
      have hh : (serial m (b :: rest)).head? ≠ some '_' := by
        obtain ⟨r, hr⟩ := serial_head m (b :: rest) (by simp)
        rw [hr]
        simpa using (alpha_ne_underscore hm)
      rw [clean_string_of_clean _ hh (serial_noUU m hm _)]
      rw [if_neg (by simpa using serial_getLast m hm (b :: rest))]

/-- `clean_string` strips exactly the leading separator. -/
theorem clean_underscore_serial (m : Char) (hm : m.isAlpha = true) (t : List Bool) :
    clean_string ('_' :: serial m t) = serial m t := by
  cases t with
  | nil => rfl
  | cons b rest =>
      rw [clean_string_eq]
      have hgl : (('_' :: serial m (b :: rest)).getLast? == some '_') = false := by
        rw [getLast?_cons_ne '_' _ (serial_ne_nil m (b :: rest) (by simp))]
        simpa using serial_getLast m hm (b :: rest)
      rw [hgl]
      simp only [Bool.false_eq_true, if_false, List.head?_cons, beq_self_eq_true, if_true,
        List.tail_cons]
      exact collapseUU_eq_self _ (serial_noUU m hm _)

/-- `clean_string` strips exactly the trailing separator. -/
theorem clean_serial_underscore (m : Char) (hm : m.isAlpha = true) (t : List Bool) :
    clean_string (serial m t ++ ['_']) = serial m t := by
  cases t with
  | nil => rfl
  | cons b rest =>
      rw [clean_string_eq]
      rw [show ((serial m (b :: rest) ++ ['_']).getLast? == some '_') = true by
        rw [List.getLast?_concat]; simp]
      simp only [if_true, List.dropLast_concat]
      obtain ⟨r, hr⟩ := serial_head m (b :: rest) (by simp)
      rw [if_neg (by rw [hr]; simp [beq_iff_eq]; simpa using (alpha_ne_underscore hm))]
      exact collapseUU_eq_self _ (serial_noUU m hm _)

theorem serial_append (m : Char) :
    ∀ (A B : List Bool), A ≠ [] → B ≠ [] →
      serial m (A ++ B) = serial m A ++ '_' :: serial m B := by
  intro A
  induction A with
  | nil => intro B h _; exact absurd rfl h
  | cons a A' ih =>
      intro B _ hB
      cases A' with
      | nil =>
          rw [List.cons_append, List.nil_append, serial_cons m a B hB]
          rfl
      | cons x xs =>
          rw [List.cons_append]
          rw [serial_cons m a (x :: xs ++ B) (by simp)]
          rw [ih B (by simp) hB]
          rw [serial_cons m a (x :: xs) (by simp)]
          simp

/-- Gluing two serialized pieces with `"_"` and cleaning gives the
serialization of the concatenation. -/
theorem glue2 (m : Char) (hm : m.isAlpha = true) (A B : List Bool) :
    clean_string (serial m A ++ '_' :: serial m B) = serial m (A ++ B) := by
  cases A with
  | nil =>
      rw [show serial m [] ++ '_' :: serial m B = '_' :: serial m B from rfl]
      rw [clean_underscore_serial m hm B]
      rfl
  | cons a A' =>
      cases B with
      | nil =>
          rw [show serial m (a :: A') ++ '_' :: serial m []
              = serial m (a :: A') ++ ['_'] from rfl]
          rw [clean_serial_underscore m hm (a :: A')]
          simp
      | cons b B' =>
          rw [← serial_append m (a :: A') (b :: B') (by simp) (by simp)]
          exact clean_serial m hm _

/-- Gluing with the substituted number-operator pair in the middle. -/
theorem glue3 (m : Char) (hm : m.isAlpha = true) (A B : List Bool) :
    clean_string (serial m A ++ '_' :: (m :: '+' :: '_' :: m :: []) ++ '_' :: serial m B)
      = serial m (A ++ true :: false :: B) := by
  have hmid : (m :: '+' :: '_' :: m :: []) = serial m [true, false] := rfl
  cases A with
  | nil =>
      cases B with
      | nil =>
          show clean_string ('_' :: ((m :: '+' :: '_' :: m :: []) ++ ['_']))
            = serial m [true, false]
          rw [clean_string_eq]
          rw [show ('_' :: ((m :: '+' :: '_' :: m :: []) ++ ['_']))
              = ('_' :: m :: '+' :: '_' :: m :: []) ++ ['_'] from rfl]
          rw [show ((('_' :: m :: '+' :: '_' :: m :: []) ++ ['_']).getLast? == some '_') = true by
            rw [List.getLast?_concat]; simp]
          simp only [if_true, List.dropLast_concat, List.head?_cons, beq_self_eq_true,
            List.tail_cons]
          exact collapseUU_eq_self _ (serial_noUU m hm [true, false])
      | cons b B' =>
          have hstep : (serial m ([] : List Bool) ++ '_' :: (m :: '+' :: '_' :: m :: [])
                ++ '_' :: serial m (b :: B'))
              = '_' :: serial m ([true, false] ++ (b :: B')) := by
            rw [serial_append m [true, false] (b :: B') (by simp) (by simp), hmid]
            rfl
          rw [hstep, clean_underscore_serial m hm _]
          rfl
  | cons a A' =>
      cases B with
      | nil =>
          have hstep : (serial m (a :: A') ++ '_' :: (m :: '+' :: '_' :: m :: [])
                ++ '_' :: serial m ([] : List Bool))
              = serial m ((a :: A') ++ [true, false]) ++ ['_'] := by
            rw [serial_append m (a :: A') [true, false] (by simp) (by simp), hmid]
            simp [serial]
          rw [hstep, clean_serial_underscore m hm _]
      | cons b B' =>
          have hstep : (serial m (a :: A') ++ '_' :: (m :: '+' :: '_' :: m :: [])
                ++ '_' :: serial m (b :: B'))
              = serial m ((a :: A') ++ [true, false] ++ (b :: B')) := by
            rw [serial_append m ((a :: A') ++ [true, false]) (b :: B') (by simp) (by simp)]
            rw [serial_append m (a :: A') [true, false] (by simp) (by simp), hmid]
          rw [hstep, clean_serial m hm _]
          simp

/-! ### Locating the leftmost out-of-order pair in a serialized sequence -/

theorem isPre_nil (s : Str) : isPre [] s = true := rfl

theorem isPre_cons_nil (p : Char) (ps : Str) : isPre (p :: ps) [] = false := rfl

theorem isPre_cons_cons (p c : Char) (ps cs : Str) :
    isPre (p :: ps) (c :: cs) = (p == c && isPre ps cs) := rfl

theorem findSub_of_pre (s pat : Str) (h : isPre pat s = true) :
    findSub s pat = some 0 := by
  unfold findSub
  rw [h]
  rfl

theorem findSub_cons_of_not_pre (c : Char) (rest pat : Str)
    (h : isPre pat (c :: rest) = false) :
    findSub (c :: rest) pat = (findSub rest pat).map (fun n => n + 1) := by
  have he : findSub (c :: rest) pat
      = if isPre pat (c :: rest) then some 0
        else (findSub rest pat).map (fun n => n + 1) := by
    conv_lhs => unfold findSub
  rw [he, h]
  simp

theorem firstD_nil : firstD [] = none := rfl

theorem firstD_single (b : Bool) : firstD [b] = none := by cases b <;> rfl

theorem firstD_ft (rest : List Bool) : firstD (false :: true :: rest) = some 0 := rfl

theorem firstD_ff (r2 : List Bool) :
    firstD (false :: false :: r2) = (firstD (false :: r2)).map (fun n => n + 1) := rfl

theorem firstD_t (rest : List Bool) :
    firstD (true :: rest) = (firstD rest).map (fun n => n + 1) := by
  cases rest with
  | nil => rfl
  | cons b r => cases b <;> rfl

theorem serial_eq_nil (m : Char) (t : List Bool) (h : serial m t = []) : t = [] := by
  by_contra hne
  exact serial_ne_nil m t hne h

/-- The inductive step for pushing `clean_string` through one leading
token: if `X` cleans to a serialized tail, prepending `tok_` cleans to the
serialization with the token in front. -/
theorem clean_tok_glue (m : Char) (hm : m.isAlpha = true) (b : Bool) (X : Str)
    (tt : List Bool) (hXs : X = [] ∨ X.head? = some m) (hnu : noUU X = true)
    (hcl : clean_string X = serial m tt) :
    clean_string (tokStr m b ++ '_' :: X) = serial m (b :: tt) := by
  have htok : tokStr m b = serial m [b] := rfl
  rcases hXs with hX0 | hXh
  · subst hX0
    have : serial m tt = [] := by rw [← hcl]; rfl
    have htt : tt = [] := serial_eq_nil m tt this
    subst htt
    rw [htok, show serial m [b] ++ '_' :: ([] : Str) = serial m [b] ++ ['_'] from rfl]
    exact clean_serial_underscore m hm [b]
  · have hh : X.head? ≠ some '_' := by
      rw [hXh]
      simpa using alpha_ne_underscore hm
    rw [clean_string_of_clean X hh hnu] at hcl
    by_cases hl : (X.getLast? == some '_') = true
    · rw [if_pos hl] at hcl
      have hXeq : X = serial m tt ++ ['_'] := by
        have h' : X.getLast? = some '_' := by simpa using hl
        rw [← hcl]
        exact (List.dropLast_append_getLast? '_' h').symm
      have htt : tt ≠ [] := by
        intro he
        subst he
        rw [show serial m ([] : List Bool) ++ ['_'] = ['_'] from rfl] at hXeq
        rw [hXeq] at hXh
        simp at hXh
        exact alpha_ne_underscore hm hXh.symm
      rw [hXeq, htok]
      rw [show serial m [b] ++ '_' :: (serial m tt ++ ['_'])
          = (serial m [b] ++ '_' :: serial m tt) ++ ['_'] by simp]
      rw [← serial_append m [b] tt (by simp) htt]
      exact clean_serial_underscore m hm ([b] ++ tt)
    · rw [if_neg hl] at hcl
      have htt : tt ≠ [] := by
        intro he
        subst he
        have : X = [] := by rw [hcl]; rfl
        rw [this] at hXh
        simp at hXh
      rw [hcl, htok, ← serial_append m [b] tt (by simp) htt]
      exact clean_serial m hm ([b] ++ tt)

theorem take_cons_shape (c : Char) (l : Str) (n : Nat) :
    (c :: l).take n = [] ∨ ((c :: l).take n).head? = some c := by
  cases n with
  | zero => exact Or.inl rfl
  | succ k => exact Or.inr (by rw [List.take_succ_cons]; rfl)

/-- The `n_dag` pattern does not start at an annihilation operator that is
followed by another annihilation operator. -/
theorem isPre_ndag_two_ann (m : Char) (r2 : List Bool) :
    isPre (m :: '_' :: m :: '+' :: []) (m :: '_' :: serial m (false :: r2)) = false := by
  obtain ⟨r, hr⟩ := serial_head m (false :: r2) (by simp)
  rw [hr]
  cases r2 with
  | nil =>
      rw [show serial m [false] = [m] from rfl] at hr
      cases hr
      simp [isPre_cons_cons, isPre_cons_nil]
  | cons y ys =>
      have h2 : m :: r = m :: '_' :: serial m (y :: ys) := by
        rw [← hr, serial_cons m false (y :: ys) (by simp)]
        rfl
      have hpu : (('+' : Char) == '_') = false := by decide
      simp only [List.cons.injEq, true_and] at h2
      rw [h2]
      simp [isPre_cons_cons, hpu]

/-- When the token sequence has no adjacent `annihilation, creation` pair,
the serialized string has no `n_dag` substring. -/
theorem simNone (m : Char) (hm : m.isAlpha = true) :
    ∀ (toks : List Bool), firstD toks = none →
      findSub (serial m toks) (m :: '_' :: m :: '+' :: []) = none
  | [], _ => by
      rw [show serial m [] = [] from rfl]
      unfold findSub
      rw [show isPre (m :: '_' :: m :: '+' :: []) [] = false from rfl]
      rfl
  | [b], _ => by
      have hmu : (m == '_') = false := by
        simpa [beq_iff_eq] using alpha_ne_underscore hm
      have hmp : (m == '+') = false := by
        simpa [beq_iff_eq] using alpha_ne_plus hm
      cases b
      · rw [show serial m [false] = [m] from rfl]
        rw [findSub_cons_of_not_pre m [] _ (by simp [isPre_cons_cons, isPre_cons_nil])]
        rw [show findSub [] (m :: '_' :: m :: '+' :: []) = none from rfl]
        rfl
      · have hup : (('_' : Char) == '+') = false := by decide
        rw [show serial m [true] = [m, '+'] from rfl]
        rw [findSub_cons_of_not_pre m ['+'] _ (by simp [isPre_cons_cons, hup])]
        rw [findSub_cons_of_not_pre '+' [] _ (by simp [isPre_cons_cons, hmp])]
        rw [show findSub [] (m :: '_' :: m :: '+' :: []) = none from rfl]
        rfl
  | false :: true :: rest, h => by
      rw [firstD_ft] at h
      exact absurd h (by simp)
  | false :: false :: r2, h => by
      have hmu : (m == '_') = false := by
        simpa [beq_iff_eq] using alpha_ne_underscore hm
      rw [firstD_ff] at h
      have h' : firstD (false :: r2) = none := by
        rcases hx : firstD (false :: r2) with _ | v
        · rfl
        · rw [hx] at h; simp at h
      have ih := simNone m hm (false :: r2) h'
      rw [serial_cons m false (false :: r2) (by simp)]
      rw [show tokStr m false ++ '_' :: serial m (false :: r2)
          = m :: '_' :: serial m (false :: r2) from rfl]
      rw [findSub_cons_of_not_pre m _ _ (isPre_ndag_two_ann m r2)]
      rw [findSub_cons_of_not_pre '_' _ _ (by simp [isPre_cons_cons, hmu])]
      rw [ih]
      rfl
  | true :: b :: rest, h => by
      have hmu : (m == '_') = false := by
        simpa [beq_iff_eq] using alpha_ne_underscore hm
      have hmp : (m == '+') = false := by
        simpa [beq_iff_eq] using alpha_ne_plus hm
      rw [firstD_t] at h
      have h' : firstD (b :: rest) = none := by
        rcases hx : firstD (b :: rest) with _ | v
        · rfl
        · rw [hx] at h; simp at h
      have ih := simNone m hm (b :: rest) h'
      rw [serial_cons m true (b :: rest) (by simp)]
      rw [show tokStr m true ++ '_' :: serial m (b :: rest)
          = m :: '+' :: '_' :: serial m (b :: rest) from rfl]
      rw [findSub_cons_of_not_pre m _ _ (by simp [isPre_cons_cons])]
      rw [findSub_cons_of_not_pre '+' _ _ (by simp [isPre_cons_cons, hmp])]
      rw [findSub_cons_of_not_pre '_' _ _ (by simp [isPre_cons_cons, hmu])]
      rw [ih]
      rfl

/-- When the token sequence has a leftmost adjacent pair
`annihilation, creation` at token index `i`, `find` locates the `n_dag`
pattern in the serialized string, and the cleaned take/drop around the
match serialize the token prefix and suffix. -/
theorem simSome (m : Char) (hm : m.isAlpha = true) :
    ∀ (toks : List Bool) (i : Nat), firstD toks = some i →
      ∃ idx, findSub (serial m toks) (m :: '_' :: m :: '+' :: []) = some idx ∧
        clean_string ((serial m toks).take idx) = serial m (toks.take i) ∧
        clean_string ((serial m toks).drop (idx + 4)) = serial m (toks.drop (i + 2))
  | [], i, h => by rw [firstD_nil] at h; exact absurd h (by simp)
  | [b], i, h => by rw [firstD_single] at h; exact absurd h (by simp)
  | false :: true :: rest, i, h => by
      rw [firstD_ft] at h
      have hi : i = 0 := by
        have := Option.some.inj h
        omega
      subst hi
      cases rest with
      | nil =>
          refine ⟨0, ?_, ?_, ?_⟩
          · refine findSub_of_pre _ _ ?_
            rw [show serial m [false, true] = m :: '_' :: m :: '+' :: [] from rfl]
            simp [isPre_cons_cons, isPre_nil]
          · rfl
          · rfl
      | cons x xs =>
          have hs : serial m (false :: true :: x :: xs)
              = m :: '_' :: m :: '+' :: '_' :: serial m (x :: xs) := by
            rw [serial_cons m false (true :: x :: xs) (by simp),
              serial_cons m true (x :: xs) (by simp)]
            rfl
          refine ⟨0, ?_, ?_, ?_⟩
          · rw [hs]
            exact findSub_of_pre _ _ (by simp [isPre_cons_cons, isPre_nil])
          · rfl
          · rw [hs]
            show clean_string ('_' :: serial m (x :: xs)) = serial m (x :: xs)
            exact clean_underscore_serial m hm (x :: xs)
  | false :: false :: r2, i, h => by
      have hmu : (m == '_') = false := by
        simpa [beq_iff_eq] using alpha_ne_underscore hm
      rw [firstD_ff] at h
      rcases Option.map_eq_some'.mp h with ⟨i', hfi, hii⟩
      obtain ⟨idx, hf, h1, h2⟩ := simSome m hm (false :: r2) i' hfi
      have hs : serial m (false :: false :: r2) = m :: '_' :: serial m (false :: r2) := by
        rw [serial_cons m false (false :: r2) (by simp)]
        rfl
      obtain ⟨r, hr⟩ := serial_head m (false :: r2) (by simp)
      refine ⟨idx + 1 + 1, ?_, ?_, ?_⟩
      · rw [hs, findSub_cons_of_not_pre m _ _ (isPre_ndag_two_ann m r2),
          findSub_cons_of_not_pre '_' _ _ (by simp [isPre_cons_cons, hmu]), hf]
        rfl
      · rw [hs, List.take_succ_cons, List.take_succ_cons]
        rw [show (m :: '_' :: (serial m (false :: r2)).take idx)
            = tokStr m false ++ '_' :: (serial m (false :: r2)).take idx from rfl]
        rw [show (false :: false :: r2).take i = false :: ((false :: r2).take i') by
          rw [← hii]; rw [List.take_succ_cons]]
        refine clean_tok_glue m hm false _ _ ?_ ?_ h1
        · rw [hr]; exact take_cons_shape m r idx
        · exact noUU_take _ _ (serial_noUU m hm (false :: r2))
      · have e1 : idx + 1 + 1 + 4 = ((idx + 4) + 1) + 1 := by omega
        have e2 : i + 2 = (i' + 2) + 1 := by omega
        rw [hs, e1, List.drop_succ_cons, List.drop_succ_cons, e2]
        rw [show (false :: false :: r2).drop ((i' + 2) + 1) = (false :: r2).drop (i' + 2) from
          List.drop_succ_cons]
        exact h2
  | true :: b :: rest, i, h => by
      have hmu : (m == '_') = false := by
        simpa [beq_iff_eq] using alpha_ne_underscore hm
      have hmp : (m == '+') = false := by
        simpa [beq_iff_eq] using alpha_ne_plus hm
      have hup : (('_' : Char) == '+') = false := by decide
      rw [firstD_t] at h
      rcases Option.map_eq_some'.mp h with ⟨i', hfi, hii⟩
      obtain ⟨idx, hf, h1, h2⟩ := simSome m hm (b :: rest) i' hfi
      have hs : serial m (true :: b :: rest) = m :: '+' :: '_' :: serial m (b :: rest) := by
        rw [serial_cons m true (b :: rest) (by simp)]
        rfl
      obtain ⟨r, hr⟩ := serial_head m (b :: rest) (by simp)
      refine ⟨idx + 1 + 1 + 1, ?_, ?_, ?_⟩
      · rw [hs, findSub_cons_of_not_pre m _ _ (by simp [isPre_cons_cons, hup]),
          findSub_cons_of_not_pre '+' _ _ (by simp [isPre_cons_cons, hmp]),
          findSub_cons_of_not_pre '_' _ _ (by simp [isPre_cons_cons, hmu]), hf]
        rfl
      · rw [hs, List.take_succ_cons, List.take_succ_cons, List.take_succ_cons]
        rw [show (m :: '+' :: '_' :: (serial m (b :: rest)).take idx)
            = tokStr m true ++ '_' :: (serial m (b :: rest)).take idx from rfl]
        rw [show (true :: b :: rest).take i = true :: ((b :: rest).take i') by
          rw [← hii]; rw [List.take_succ_cons]]
        refine clean_tok_glue m hm true _ _ ?_ ?_ h1
        · rw [hr]; exact take_cons_shape m r idx
        · exact noUU_take _ _ (serial_noUU m hm (b :: rest))
      · have e1 : idx + 1 + 1 + 1 + 4 = (((idx + 4) + 1) + 1) + 1 := by omega
        have e2 : i + 2 = (i' + 2) + 1 := by omega
        rw [hs, e1, List.drop_succ_cons, List.drop_succ_cons, List.drop_succ_cons, e2]
        rw [show (true :: b :: rest).drop ((i' + 2) + 1) = (b :: rest).drop (i' + 2) from
          List.drop_succ_cons]
        exact h2
termination_by toks => toks.length

/-! ### The rewrite step of `normal_ordering`, seen on token sequences -/

theorem normal_ordering_succ_none (fuel : Nat) (mode : Char) (s : Str) (c : CC)
    (h : findSub s (mode :: '_' :: mode :: '+' :: []) = none) :
    normal_ordering (fuel + 1) mode s c = some [(s, c)] := by
  have he : normal_ordering (fuel + 1) mode s c =
      match findSub s (mode :: '_' :: mode :: '+' :: []) with
      | none => some [(s, c)]
      | some idx =>
          (normal_ordering fuel mode
              (clean_string (clean_string (s.take idx) ++ '_' ::
                (mode :: '+' :: '_' :: mode :: []) ++ '_' ::
                  clean_string (s.drop (idx + 4)))) c).bind
            (fun d1 =>
              (normal_ordering fuel mode
                  (clean_string (clean_string (s.take idx) ++ '_' ::
                    clean_string (s.drop (idx + 4)))) c).bind
                (fun d2 => some (add_expr_dicts d1 d2))) := rfl
  rw [he, h]

theorem normal_ordering_succ_some (fuel : Nat) (mode : Char) (s : Str) (c : CC) (idx : Nat)
    (h : findSub s (mode :: '_' :: mode :: '+' :: []) = some idx) :
    normal_ordering (fuel + 1) mode s c =
      (normal_ordering fuel mode
          (clean_string (clean_string (s.take idx) ++ '_' ::
            (mode :: '+' :: '_' :: mode :: []) ++ '_' ::
              clean_string (s.drop (idx + 4)))) c).bind
        (fun d1 =>
          (normal_ordering fuel mode
              (clean_string (clean_string (s.take idx) ++ '_' ::
                clean_string (s.drop (idx + 4)))) c).bind
            (fun d2 => some (add_expr_dicts d1 d2))) := by
  have he : normal_ordering (fuel + 1) mode s c =
      match findSub s (mode :: '_' :: mode :: '+' :: []) with
      | none => some [(s, c)]
      | some idx =>
          (normal_ordering fuel mode
              (clean_string (clean_string (s.take idx) ++ '_' ::
                (mode :: '+' :: '_' :: mode :: []) ++ '_' ::
                  clean_string (s.drop (idx + 4)))) c).bind
            (fun d1 =>
              (normal_ordering fuel mode
                  (clean_string (clean_string (s.take idx) ++ '_' ::
                    clean_string (s.drop (idx + 4)))) c).bind
                (fun d2 => some (add_expr_dicts d1 d2))) := rfl
  rw [he, h]

/-- One unfolding of `normal_ordering` on a serialized token sequence with
a leftmost out-of-order pair at token position `i`: the two recursive
calls are on the swapped sequence and on the sequence with the pair
dropped. -/
theorem NO_step (m : Char) (hm : m.isAlpha = true) (toks : List Bool) (i : Nat)
    (fuel : Nat) (c : CC) (hi : firstD toks = some i) :
    normal_ordering (fuel + 1) m (serial m toks) c
      = (normal_ordering fuel m
            (serial m (toks.take i ++ true :: false :: toks.drop (i + 2))) c).bind
          (fun d1 =>
            (normal_ordering fuel m (serial m (toks.take i ++ toks.drop (i + 2))) c).bind
              (fun d2 => some (add_expr_dicts d1 d2))) := by
  obtain ⟨idx, hf, h1, h2⟩ := simSome m hm toks i hi
  rw [normal_ordering_succ_some fuel m _ c idx hf, h1, h2]
  rw [glue3 m hm (toks.take i) (toks.drop (i + 2))]
  rw [glue2 m hm (toks.take i) (toks.drop (i + 2))]

/-- One unfolding of `normal_ordering` on an already normal-ordered
serialized token sequence. -/
theorem NO_base (m : Char) (hm : m.isAlpha = true) (toks : List Bool)
    (fuel : Nat) (c : CC) (hi : firstD toks = none) :
    normal_ordering (fuel + 1) m (serial m toks) c = some [(serial m toks, c)] :=
  normal_ordering_succ_none fuel m _ c (simNone m hm toks hi)

/-! ### The termination measure: inversion count -/

theorem invCount_nil : invCount [] = 0 := rfl

theorem invCount_false (l : List Bool) :
    invCount (false :: l) = l.count true + invCount l := rfl

theorem invCount_true (l : List Bool) : invCount (true :: l) = invCount l := rfl

theorem invCount_append : ∀ (A B : List Bool),
    invCount (A ++ B) = invCount A + invCount B + A.count false * B.count true := by
  intro A
  induction A with
  | nil => intro B; simp [invCount_nil]
  | cons a A' ih =>
      intro B
      cases a
      · rw [List.cons_append, invCount_false, invCount_false, ih, List.count_append]
        rw [List.count_cons_self]
        ring
      · rw [List.cons_append, invCount_true, invCount_true, ih]
        rw [List.count_cons_of_ne (by simp)]

theorem firstD_decomp : ∀ (toks : List Bool) (i : Nat), firstD toks = some i →
    toks = toks.take i ++ false :: true :: toks.drop (i + 2)
  | [], i, h => by rw [firstD_nil] at h; exact absurd h (by simp)
  | [b], i, h => by rw [firstD_single] at h; exact absurd h (by simp)
  | false :: true :: rest, i, h => by
      rw [firstD_ft] at h
      have hi : i = 0 := by have := Option.some.inj h; omega
      subst hi
      rfl
  | false :: false :: r2, i, h => by
      rw [firstD_ff] at h
      rcases Option.map_eq_some'.mp h with ⟨i', hfi, hii⟩
      have ih := firstD_decomp (false :: r2) i' hfi
      have e2 : i = i' + 1 := by omega
      subst e2
      rw [List.take_succ_cons]
      have e3 : i' + 1 + 2 = (i' + 2) + 1 := by omega
      rw [e3, List.drop_succ_cons]
      rw [List.cons_append]
      exact congrArg (false :: ·) ih
  | true :: b :: rest, i, h => by
      rw [firstD_t] at h
      rcases Option.map_eq_some'.mp h with ⟨i', hfi, hii⟩
      have ih := firstD_decomp (b :: rest) i' hfi
      have e2 : i = i' + 1 := by omega
      subst e2
      rw [List.take_succ_cons]
      have e3 : i' + 1 + 2 = (i' + 2) + 1 := by omega
      rw [e3, List.drop_succ_cons]
      rw [List.cons_append]
      exact congrArg (true :: ·) ih

theorem inv_with_n_lt (toks : List Bool) (i : Nat) (h : firstD toks = some i) :
    invCount (toks.take i ++ true :: false :: toks.drop (i + 2)) < invCount toks := by
  conv_rhs => rw [firstD_decomp toks i h]
  rw [show (true :: false :: toks.drop (i + 2)) = [true, false] ++ toks.drop (i + 2) from rfl]
  rw [show (false :: true :: toks.drop (i + 2)) = [false, true] ++ toks.drop (i + 2) from rfl]
  rw [← List.append_assoc, ← List.append_assoc]
  rw [invCount_append (toks.take i ++ [true, false]) (toks.drop (i + 2))]
  rw [invCount_append (toks.take i ++ [false, true]) (toks.drop (i + 2))]
  rw [invCount_append (toks.take i) [true, false], invCount_append (toks.take i) [false, true]]
  rw [List.count_append, List.count_append]
  have e1 : invCount [true, false] = 0 := by decide
  have e2 : invCount [false, true] = 1 := by decide
  have e3 : List.count true [true, false] = 1 := by decide
  have e4 : List.count true [false, true] = 1 := by decide
  have e5 : List.count false [true, false] = 1 := by decide
  have e6 : List.count false [false, true] = 1 := by decide
  rw [e1, e2, e3, e4, e5, e6]
  have : ∀ (x y z w : Nat),
      x + 0 + y * 1 + z + (y + 1) * w < x + 1 + y * 1 + z + (y + 1) * w := by
    intro x y z w
    omega
  calc invCount (toks.take i) + 0 + List.count false (toks.take i) * 1
        + invCount (toks.drop (i + 2))
        + (List.count false (toks.take i) + 1) * List.count true (toks.drop (i + 2))
      < invCount (toks.take i) + 1 + List.count false (toks.take i) * 1
        + invCount (toks.drop (i + 2))
        + (List.count false (toks.take i) + 1) * List.count true (toks.drop (i + 2)) := by
        exact this _ _ _ _
    _ = invCount (toks.take i) + 1 + List.count false (toks.take i) * 1
        + invCount (toks.drop (i + 2))
        + (List.count false (toks.take i) + 1) * List.count true (toks.drop (i + 2)) := rfl

theorem inv_with_1_lt (toks : List Bool) (i : Nat) (h : firstD toks = some i) :
    invCount (toks.take i ++ toks.drop (i + 2)) < invCount toks := by
  conv_rhs => rw [firstD_decomp toks i h]
  rw [show (false :: true :: toks.drop (i + 2)) = [false, true] ++ toks.drop (i + 2) from rfl]
  rw [← List.append_assoc]
  rw [invCount_append (toks.take i ++ [false, true]) (toks.drop (i + 2))]
  rw [invCount_append (toks.take i) (toks.drop (i + 2))]
  rw [invCount_append (toks.take i) [false, true]]
  rw [List.count_append]
  have e2 : invCount [false, true] = 1 := by decide
  have e4 : List.count true [false, true] = 1 := by decide
  have e6 : List.count false [false, true] = 1 := by decide
  rw [e2, e4, e6]
  have : ∀ (x y z w v : Nat),
      x + z + y * v < x + 1 + y * 1 + z + (y + 1) * v := by
    intro x y z w v
    have : y * v ≤ (y + 1) * v := Nat.mul_le_mul_right v (by omega)
    omega
  exact this _ _ _ 0 _

/-- With fuel exceeding the inversion count, `normal_ordering` returns a
result on every serialized single-mode token sequence. -/
theorem NO_succeeds (m : Char) (hm : m.isAlpha = true) :
    ∀ (fuel : Nat) (toks : List Bool) (c : CC), invCount toks < fuel →
      ∃ d, normal_ordering fuel m (serial m toks) c = some d := by
  intro fuel
  induction fuel with
  | zero => intro toks c h; omega
  | succ f ih =>
      intro toks c h
      rcases hfd : firstD toks with _ | i
      · exact ⟨[(serial m toks, c)], NO_base m hm toks f c hfd⟩
      · have hn := inv_with_n_lt toks i hfd
        have h1 := inv_with_1_lt toks i hfd
        obtain ⟨d1, hd1⟩ := ih (toks.take i ++ true :: false :: toks.drop (i + 2)) c (by omega)
        obtain ⟨d2, hd2⟩ := ih (toks.take i ++ toks.drop (i + 2)) c (by omega)
        refine ⟨add_expr_dicts d1 d2, ?_⟩
        rw [NO_step m hm toks i f c hfd, hd1, hd2]
        rfl

theorem invCount_le_sq (toks : List Bool) : invCount toks ≤ toks.length * toks.length := by
  induction toks with
  | nil => simp [invCount_nil]
  | cons b rest ih =>
      have hc := List.count_le_length true rest
      rw [List.length_cons]
      rw [show (rest.length + 1) * (rest.length + 1)
          = rest.length * rest.length + 2 * rest.length + 1 from by ring]
      cases b
      · rw [invCount_false]; omega
      · rw [invCount_true]; omega

/-- C4: `normal_ordering` terminates on every single-mode token-sequence
input.  Each recursive call consumes one unit of fuel and strictly
decreases the inversion count (the `"1"` branch drops the pair, the `"n"`
branch replaces the leftmost out-of-order pair by the ordered pair), so
fuel quadratic in the token count always produces a result. -/
theorem c4_normal_ordering_terminates (m : Char) (toks : List Bool) (c : CC)
    (hm : m.isAlpha = true) :
    (normal_ordering (toks.length * toks.length + 1) m (serial m toks) c).isSome = true := by
  obtain ⟨d, hd⟩ := NO_succeeds m hm (toks.length * toks.length + 1) toks c
    (by have := invCount_le_sq toks; omega)
  rw [hd]
  rfl

/-- Witness for C4 on the two-token sequence `a_a+`. -/
theorem c4_witness :
    (normal_ordering ([false, true].length * [false, true].length + 1) 'a'
        (serial 'a' [false, true]) oneCC).isSome = true :=
  c4_normal_ordering_terminates 'a' [false, true] oneCC (by decide)

/-! ### C3: every key returned by the reducer is normal ordered -/

theorem firstD_none_shape : ∀ (toks : List Bool), firstD toks = none →
    ∃ a b, toks = List.replicate a true ++ List.replicate b false := by
  intro toks
  induction toks with
  | nil => exact fun _ => ⟨0, 0, rfl⟩
  | cons x rest ih =>
      intro h
      cases x
      · cases rest with
        | nil => exact ⟨0, 1, rfl⟩
        | cons y ys =>
            cases y
            · rw [firstD_ff] at h
              have h' : firstD (false :: ys) = none := by
                rcases hx : firstD (false :: ys) with _ | v
                · rfl
                · rw [hx] at h; simp at h
              obtain ⟨a, b, hr⟩ := ih h'
              cases a with
              | zero =>
                  rw [List.replicate_zero, List.nil_append] at hr
                  refine ⟨0, b + 1, ?_⟩
                  rw [List.replicate_zero, List.nil_append]
                  rw [show List.replicate (b + 1) false = false :: List.replicate b false from rfl]
                  rw [← hr]
              | succ a' =>
                  rw [show List.replicate (a' + 1) true = true :: List.replicate a' true from rfl,
                    List.cons_append] at hr
                  exact absurd hr (by simp)
            · rw [firstD_ft] at h; exact absurd h (by simp)
      · rw [firstD_t] at h
        have h' : firstD rest = none := by
          rcases hx : firstD rest with _ | v
          · rfl
          · rw [hx] at h; simp at h
        obtain ⟨a, b, hr⟩ := ih h'
        refine ⟨a + 1, b, ?_⟩
        rw [show List.replicate (a + 1) true = true :: List.replicate a true from rfl,
          List.cons_append, ← hr]

theorem keys_bumpFirst : ∀ (d : Dict) (k : Str) (v : CC),
    (bumpFirst d k v).map Prod.fst = d.map Prod.fst := by
  intro d
  induction d with
  | nil => intro k v; rfl
  | cons kv rest ih =>
      intro k v
      by_cases h : kv.1 == k
      · simp [bumpFirst, h]
      · simp [bumpFirst, h, ih]

theorem mem_keys_add_expr_dicts : ∀ (d2 d1 : Dict) (k : Str),
    k ∈ (add_expr_dicts d1 d2).map Prod.fst →
      k ∈ d1.map Prod.fst ∨ k ∈ d2.map Prod.fst := by
  intro d2
  induction d2 with
  | nil => intro d1 k h; exact Or.inl h
  | cons kv rest ih =>
      intro d1 k h
      rw [show add_expr_dicts d1 (kv :: rest)
          = add_expr_dicts
              (if keyIn d1 kv.1 then bumpFirst d1 kv.1 kv.2 else d1 ++ [(kv.1, kv.2)]) rest
          from rfl] at h
      rcases ih _ k h with h' | h'
      · by_cases hk : keyIn d1 kv.1
        · rw [if_pos hk, keys_bumpFirst] at h'
          exact Or.inl h'
        · rw [if_neg hk] at h'
          rw [List.map_append] at h'
          rcases List.mem_append.mp h' with h'' | h''
          · exact Or.inl h''
          · refine Or.inr ?_
            simp only [List.map_cons, List.mem_cons]
            simp at h''
            exact Or.inl h''
      · refine Or.inr ?_
        simp only [List.map_cons, List.mem_cons]
        exact Or.inr h'

theorem NO_keys_aux (m : Char) (hm : m.isAlpha = true) :
    ∀ (fuel : Nat) (toks : List Bool) (c : CC) (d : Dict),
      normal_ordering fuel m (serial m toks) c = some d →
      ∀ k, k ∈ d.map Prod.fst →
        ∃ a b, k = serial m (List.replicate a true ++ List.replicate b false) := by
  intro fuel
  induction fuel with
  | zero => intro toks c d h; exact absurd h (by simp [normal_ordering])
  | succ f ih =>
      intro toks c d h k hk
      rcases hfd : firstD toks with _ | i
      · rw [NO_base m hm toks f c hfd] at h
        have hd : d = [(serial m toks, c)] := by
          have := Option.some.inj h
          exact this.symm
        subst hd
        simp only [List.map_cons, List.map_nil, List.mem_cons, List.not_mem_nil,
          or_false] at hk
        obtain ⟨a, b, hab⟩ := firstD_none_shape toks hfd
        exact ⟨a, b, by rw [hk, hab]⟩
      · rw [NO_step m hm toks i f c hfd] at h
        rcases hd1 : normal_ordering f m
            (serial m (toks.take i ++ true :: false :: toks.drop (i + 2))) c with _ | d1
        · rw [hd1] at h; exact absurd h (by simp)
        · rw [hd1] at h
          rcases hd2 : normal_ordering f m
              (serial m (toks.take i ++ toks.drop (i + 2))) c with _ | d2
          · rw [hd2] at h; exact absurd h (by simp)
          · rw [hd2] at h
            simp only [Option.some_bind, Option.some_inj] at h
            have hd : d = add_expr_dicts d1 d2 := h.symm
            subst hd
            rcases mem_keys_add_expr_dicts d2 d1 k hk with h' | h'
            · exact ih _ c d1 hd1 k h'
            · exact ih _ c d2 hd2 k h'

theorem firstD_replicate_false : ∀ (b : Nat), firstD (List.replicate b false) = none := by
  intro b
  induction b with
  | zero => rfl
  | succ b' ih =>
      rw [show List.replicate (b' + 1) false = false :: List.replicate b' false from rfl]
      cases hb : b' with
      | zero => rfl
      | succ b'' =>
          rw [show List.replicate (b'' + 1) false = false :: List.replicate b'' false from rfl]
          rw [firstD_ff]
          rw [show (false :: List.replicate b'' false) = List.replicate (b'' + 1) false from rfl]
          rw [← hb, ih]
          rfl

theorem firstD_replicate_none (a b : Nat) :
    firstD (List.replicate a true ++ List.replicate b false) = none := by
  induction a with
  | zero =>
      rw [List.replicate_zero, List.nil_append]
      exact firstD_replicate_false b
  | succ a' ih =>
      rw [show List.replicate (a' + 1) true = true :: List.replicate a' true from rfl,
        List.cons_append, firstD_t, ih]
      rfl

/-- C3: every key of the mapping returned by `normal_ordering` on a
serialized single-mode token sequence is itself the serialization of a
fully-ordered sequence (all creation tokens before all annihilation
tokens), and contains no occurrence of the `n_dag` pattern
`annihilation-then-creation`. -/
theorem c3_normal_ordering_keys_ordered (m : Char) (toks : List Bool) (c : CC)
    (fuel : Nat) (d : Dict) (hm : m.isAlpha = true)
    (h : normal_ordering fuel m (serial m toks) c = some d) :
    ∀ kv ∈ d, (∃ a b, kv.1 = serial m (List.replicate a true ++ List.replicate b false))
      ∧ findSub kv.1 (m :: '_' :: m :: '+' :: []) = none := by
  intro kv hkv
  have hk : kv.1 ∈ d.map Prod.fst := List.mem_map.mpr ⟨kv, hkv, rfl⟩
  obtain ⟨a, b, hab⟩ := NO_keys_aux m hm fuel toks c d h kv.1 hk
  refine ⟨⟨a, b, hab⟩, ?_⟩
  rw [hab]
  exact simNone m hm _ (firstD_replicate_none a b)

/-- Witness for C3 on the input `a_a+` with fuel 5. -/
theorem c3_witness :
    (∃ a b, (['a', '+', '_', 'a'] : Str)
      = serial 'a' (List.replicate a true ++ List.replicate b false))
    ∧ findSub ['a', '+', '_', 'a'] ('a' :: '_' :: 'a' :: '+' :: []) = none :=
  c3_normal_ordering_keys_ordered 'a' [false, true] oneCC 5
    [(['a', '+', '_', 'a'], oneCC), ([], oneCC)] (by decide) (by decide)
    (['a', '+', '_', 'a'], oneCC) (by decide)

/-! ### C8: the algebraic operations are total on well-formed expressions -/

/-- `Expression.multiply` is the pair loop (with step `pairStep`) followed
by packing the result with the merged sorted mode list. -/
theorem multiply_eq (e1 e2 : Expression) (fuel : Nat) :
    e1.multiply e2 fuel
      = (e1.expr_dict.foldlM
            (fun result_dict p1 => e2.expr_dict.foldlM (pairStep fuel p1) result_dict)
            []).bind
          (fun rd =>
            some ⟨rd, List.insertionSort (fun a b => a ≤ b) (e1.modes ++ e2.modes).dedup⟩) :=
  rfl

/-- A monadic fold whose step succeeds at least as often as another's
succeeds with the same value. -/
theorem foldlM_step_mono {α β : Type} (f g : β → α → Option β)
    (hfg : ∀ b a x, f b a = some x → g b a = some x) :
    ∀ (l : List α) (b x : β), l.foldlM f b = some x → l.foldlM g b = some x := by
  intro l
  induction l with
  | nil => intro b x h; exact h
  | cons a l ih =>
      intro b x h
      rw [List.foldlM_cons] at h ⊢
      rcases hf : f b a with _ | b'
      · rw [hf] at h; simp [bind, Option.bind] at h
      · rw [hf] at h
        rw [hfg b a b' hf]
        simp only [bind, Option.bind] at h ⊢
        exact ih b' x h

/-- `normal_ordering` is monotone in the fuel: a successful run keeps its
value at any larger fuel. -/
theorem NO_mono :
    ∀ (fuel : Nat) (m : Char) (s : Str) (c : CC) (d : Dict),
      normal_ordering fuel m s c = some d →
      ∀ fuel', fuel ≤ fuel' → normal_ordering fuel' m s c = some d := by
  intro fuel
  induction fuel with
  | zero => intro m s c d h; exact absurd h (by simp [normal_ordering])
  | succ f ih =>
      intro m s c d h fuel' hle
      obtain ⟨f', rfl⟩ : ∃ f', fuel' = f' + 1 := ⟨fuel' - 1, by omega⟩
      have hff : f ≤ f' := by omega
      rcases hfs : findSub s (m :: '_' :: m :: '+' :: []) with _ | idx
      · rw [normal_ordering_succ_none f m s c hfs] at h
        rw [normal_ordering_succ_none f' m s c hfs]
        exact h
      · rw [normal_ordering_succ_some f m s c idx hfs] at h
        rw [normal_ordering_succ_some f' m s c idx hfs]
        rcases hd1 : normal_ordering f m
            (clean_string (clean_string (s.take idx) ++ '_' ::
              (m :: '+' :: '_' :: m :: []) ++ '_' :: clean_string (s.drop (idx + 4)))) c
          with _ | d1
        · rw [hd1] at h; exact absurd h (by simp)
        · rw [hd1] at h
          rcases hd2 : normal_ordering f m
              (clean_string (clean_string (s.take idx) ++ '_' ::
                clean_string (s.drop (idx + 4)))) c with _ | d2
          · rw [hd2] at h; exact absurd h (by simp)
          · rw [hd2] at h
            rw [ih m _ c d1 hd1 f' hff, ih m _ c d2 hd2 f' hff]
            exact h

/-- The per-part step of `Expression.multiply` is monotone in the fuel. -/
theorem partsStep_mono (fuel fuel' : Nat) (hle : fuel ≤ fuel') :
    ∀ (temp : Dict) (s : Str) (d : Dict),
      partsStep fuel temp s = some d → partsStep fuel' temp s = some d := by
  intro temp s d h
  unfold partsStep at h ⊢
  rcases hh : s.head? with _ | mode
  · rw [hh] at h; simp [Option.bind] at h
  · rw [hh] at h
    simp only [Option.some_bind] at h ⊢
    rcases hn : normal_ordering fuel mode s oneCC with _ | nd
    · rw [hn] at h; simp [Option.bind] at h
    · rw [hn] at h
      rw [NO_mono fuel mode s oneCC nd hn fuel' hle]
      exact h

/-- The per-pair step of `Expression.multiply` is monotone in the fuel. -/
theorem pairStep_mono (fuel fuel' : Nat) (hle : fuel ≤ fuel') (p1 : Str × CC) :
    ∀ (rd : Dict) (p2 : Str × CC) (d : Dict),
      pairStep fuel p1 rd p2 = some d → pairStep fuel' p1 rd p2 = some d := by
  intro rd p2 d h
  unfold pairStep at h ⊢
  by_cases hz : (p1.1 == ([] : Str) && p2.1 == ([] : Str)) = true
  · rw [if_pos hz] at h ⊢; exact h
  · rw [if_neg hz] at h ⊢
    rcases hs : split_modes (hspace_organize (p1.1 ++ '_' :: p2.1)) with _ | parts
    · rw [hs] at h; simp [Option.bind] at h
    · rw [hs] at h
      simp only [Option.some_bind] at h ⊢
      rcases ht : parts.foldlM (partsStep fuel) ([] : Dict) with _ | temp
      · rw [ht] at h; simp [Option.bind] at h
      · rw [ht] at h
        rw [foldlM_step_mono (partsStep fuel) (partsStep fuel')
          (partsStep_mono fuel fuel' hle) parts [] temp ht]
        exact h

/-- `Expression.multiply` is monotone in the fuel: a successful run keeps
its value at any larger fuel. -/
theorem multiply_mono (e1 e2 : Expression) (fuel fuel' : Nat) (hle : fuel ≤ fuel')
    (e : Expression) (h : e1.multiply e2 fuel = some e) : e1.multiply e2 fuel' = some e := by
  rw [multiply_eq] at h ⊢
  rcases hF : e1.expr_dict.foldlM
      (fun result_dict p1 => e2.expr_dict.foldlM (pairStep fuel p1) result_dict) []
    with _ | rd
  · rw [hF] at h; simp [Option.bind] at h
  · rw [hF] at h
    have hF' := foldlM_step_mono
      (fun result_dict p1 => e2.expr_dict.foldlM (pairStep fuel p1) result_dict)
      (fun result_dict p1 => e2.expr_dict.foldlM (pairStep fuel' p1) result_dict)
      (fun b a x hx => foldlM_step_mono (pairStep fuel a) (pairStep fuel' a)
        (pairStep_mono fuel fuel' hle a) e2.expr_dict b x hx)
      e1.expr_dict [] rd hF
    rw [hF']
    exact h

/-! ### Serialized multi-mode token sequences -/

theorem tokStrM_ne_nil (t : Tok) : tokStrM t ≠ [] := by
  cases t with
  | mk m b => cases b <;> simp [tokStrM, tokStr]

theorem serialM_cons (t : Tok) (rest : List Tok) (h : rest ≠ []) :
    serialM (t :: rest) = tokStrM t ++ '_' :: serialM rest := by
  cases rest with
  | nil => exact absurd rfl h
  | cons x xs => rfl

theorem serialM_ne_nil (ts : List Tok) (h : ts ≠ []) : serialM ts ≠ [] := by
  cases ts with
  | nil => exact absurd rfl h
  | cons t rest =>
      cases rest with
      | nil => simpa [serialM] using tokStrM_ne_nil t
      | cons x xs =>
          rw [serialM_cons t (x :: xs) (by simp)]
          simp

theorem serialM_head (t : Tok) (rest : List Tok) :
    ∃ r, serialM (t :: rest) = t.1 :: r := by
  cases rest with
  | nil => cases t with | mk m b => cases b <;> exact ⟨_, rfl⟩
  | cons x xs => cases t with | mk m b => cases b <;> exact ⟨_, rfl⟩

theorem serialM_getLast (ts : List Tok) (h : ∀ t ∈ ts, t.1.isAlpha = true) :
    (serialM ts).getLast? ≠ some '_' := by
  induction ts with
  | nil => simp [serialM]
  | cons t rest ih =>
      cases rest with
      | nil =>
          cases t with
          | mk m b =>
              have hm : m.isAlpha = true := h (m, b) (by simp)
              cases b <;> simp [serialM, tokStrM, tokStr] <;>
                exact fun hc => alpha_ne_underscore hm hc
      | cons x xs =>
          rw [serialM_cons t (x :: xs) (by simp)]
          rw [List.getLast?_append]
          have hne := serialM_ne_nil (x :: xs) (by simp)
          rcases hr : serialM (x :: xs) with _ | ⟨c, cs⟩
          · exact absurd hr hne
          · have ih' := ih (fun u hu => h u (List.mem_cons_of_mem _ hu))
            rw [hr] at ih'
            simpa [Option.or] using ih'

theorem serialM_noUU (ts : List Tok) (h : ∀ t ∈ ts, t.1.isAlpha = true) :
    noUU (serialM ts) = true := by
  induction ts with
  | nil => simp [serialM, noUU]
  | cons t rest ih =>
      cases rest with
      | nil =>
          cases t with
          | mk m b =>
              have hm : m.isAlpha = true := h (m, b) (by simp)
              have hmu : (m == '_') = false := by
                simpa [beq_iff_eq] using alpha_ne_underscore hm
              cases b <;> simp [serialM, tokStrM, tokStr, noUU, hmu]
      | cons x xs =>
          obtain ⟨r, hr⟩ := serialM_head x xs
          have hx : x.1.isAlpha = true := h x (by simp)
          have hxu : (x.1 == '_') = false := by
            simpa [beq_iff_eq] using alpha_ne_underscore hx
          have hpu : (('+' : Char) == '_') = false := by decide
          have huu : (('_' : Char) == '_') = true := by decide
          have ih' := ih (fun u hu => h u (List.mem_cons_of_mem _ hu))
          rw [serialM_cons t (x :: xs) (by simp), hr]
          rw [hr] at ih'
          cases t with
          | mk m b =>
              have hm : m.isAlpha = true := h (m, b) (by simp)
              have hmu : (m == '_') = false := by
                simpa [beq_iff_eq] using alpha_ne_underscore hm
              cases b
              · show noUU (m :: '_' :: x.1 :: r) = true
                rw [noUU_cons₂, noUU_cons₂]
                simp [hmu, huu, hxu, ih']
              · show noUU (m :: '+' :: '_' :: x.1 :: r) = true
                rw [noUU_cons₂, noUU_cons₂, noUU_cons₂]
                simp [hmu, hpu, huu, hxu, ih']

theorem clean_serialM (ts : List Tok) (h : ∀ t ∈ ts, t.1.isAlpha = true) :
    clean_string (serialM ts) = serialM ts := by
  cases ts with
  | nil => rfl
  | cons t rest =>
      have hh : (serialM (t :: rest)).head? ≠ some '_' := by
        obtain ⟨r, hr⟩ := serialM_head t rest
        rw [hr]
        have hm : t.1.isAlpha = true := h t (by simp)
        simpa using alpha_ne_underscore hm
      rw [clean_string_of_clean _ hh (serialM_noUU _ h)]
      rw [if_neg (by simpa using serialM_getLast (t :: rest) h)]

theorem clean_underscore_serialM (ts : List Tok) (h : ∀ t ∈ ts, t.1.isAlpha = true) :
    clean_string ('_' :: serialM ts) = serialM ts := by
  cases ts with
  | nil => rfl
  | cons t rest =>
      rw [clean_string_eq]
      have hgl : (('_' :: serialM (t :: rest)).getLast? == some '_') = false := by
        rw [getLast?_cons_ne '_' _ (serialM_ne_nil (t :: rest) (by simp))]
        simpa using serialM_getLast (t :: rest) h
      rw [hgl]
      simp only [Bool.false_eq_true, if_false, List.head?_cons, beq_self_eq_true, if_true,
        List.tail_cons]
      exact collapseUU_eq_self _ (serialM_noUU _ h)

theorem clean_serialM_underscore (ts : List Tok) (h : ∀ t ∈ ts, t.1.isAlpha = true) :
    clean_string (serialM ts ++ ['_']) = serialM ts := by
  cases ts with
  | nil => rfl
  | cons t rest =>
      rw [clean_string_eq]
      rw [show ((serialM (t :: rest) ++ ['_']).getLast? == some '_') = true by
        rw [List.getLast?_concat]; simp]
      simp only [if_true, List.dropLast_concat]
      obtain ⟨r, hr⟩ := serialM_head t rest
      have hm : t.1.isAlpha = true := h t (by simp)
      rw [if_neg (by rw [hr]; simp [beq_iff_eq]; simpa using alpha_ne_underscore hm)]
      exact collapseUU_eq_self _ (serialM_noUU _ h)

theorem serialM_append : ∀ (A B : List Tok), A ≠ [] → B ≠ [] →
    serialM (A ++ B) = serialM A ++ '_' :: serialM B := by
  intro A
  induction A with
  | nil => intro B h _; exact absurd rfl h
  | cons a A' ih =>
      intro B _ hB
      cases A' with
      | nil =>
          rw [List.cons_append, List.nil_append, serialM_cons a B hB]
          rfl
      | cons x xs =>
          rw [List.cons_append]
          rw [serialM_cons a (x :: xs ++ B) (by simp)]
          rw [ih B (by simp) hB]
          rw [serialM_cons a (x :: xs) (by simp)]
          simp

/-- Gluing two serialized multi-mode pieces with `"_"` and cleaning gives
the serialization of the concatenation, also when a piece is empty. -/
theorem glue2M (A B : List Tok) (hA : ∀ t ∈ A, t.1.isAlpha = true)
    (hB : ∀ t ∈ B, t.1.isAlpha = true) :
    clean_string (serialM A ++ '_' :: serialM B) = serialM (A ++ B) := by
  cases A with
  | nil =>
      rw [show serialM ([] : List Tok) ++ '_' :: serialM B = '_' :: serialM B from rfl]
      rw [clean_underscore_serialM B hB]
      rfl
  | cons a A' =>
      cases B with
      | nil =>
          rw [show serialM (a :: A') ++ '_' :: serialM ([] : List Tok)
              = serialM (a :: A') ++ ['_'] from rfl]
          rw [clean_serialM_underscore (a :: A') hA]
          simp
      | cons b B' =>
          rw [← serialM_append (a :: A') (b :: B') (by simp) (by simp)]
          refine clean_serialM _ ?_
          intro t ht
          rcases List.mem_append.mp ht with h' | h'
          · exact hA t h'
          · exact hB t h'

theorem mem_serialM (c : Char) (hc : c.isAlpha = true) :
    ∀ ts : List Tok, (c ∈ serialM ts ↔ ∃ t ∈ ts, t.1 = c) := by
  intro ts
  induction ts with
  | nil => simp [serialM]
  | cons t rest ih =>
      have hcu : c ≠ '_' := alpha_ne_underscore hc
      have hcp : c ≠ '+' := alpha_ne_plus hc
      have htk : c ∈ tokStrM t ↔ c = t.1 := by
        cases t with
        | mk m b => cases b <;> simp [tokStrM, tokStr, hcp]
      cases rest with
      | nil =>
          show c ∈ tokStrM t ↔ _
          rw [htk]
          constructor
          · intro h'; exact ⟨t, by simp, h'.symm⟩
          · rintro ⟨u, hu, hu2⟩
            simp only [List.mem_singleton] at hu
            subst hu
            exact hu2.symm
      | cons x xs =>
          rw [serialM_cons t (x :: xs) (by simp)]
          simp only [List.mem_append, List.mem_cons]
          rw [htk, ih]
          constructor
          · rintro (h' | (h' | h'))
            · exact ⟨t, Or.inl rfl, h'.symm⟩
            · exact absurd h' hcu
            · obtain ⟨u, hu, hu2⟩ := h'
              exact ⟨u, Or.inr (List.mem_cons.mp hu), hu2⟩
          · rintro ⟨u, hu | hu, hu2⟩
            · subst hu; exact Or.inl hu2.symm
            · exact Or.inr (Or.inr ⟨u, List.mem_cons.mpr hu, hu2⟩)

/-- A uniform-mode multi-mode sequence is a single-mode sequence. -/
theorem serialM_const (ts : List Tok) (m : Char) (h : ∀ t ∈ ts, t.1 = m) :
    serialM ts = serial m (ts.map Prod.snd) := by
  induction ts with
  | nil => rfl
  | cons t rest ih =>
      cases rest with
      | nil =>
          cases t with
          | mk m' b =>
              have hm : m' = m := h (m', b) (by simp)
              subst hm
              rfl
      | cons x xs =>
          have ih' := ih (fun u hu => h u (List.mem_cons_of_mem _ hu))
          rw [serialM_cons t (x :: xs) (by simp)]
          rw [show (t :: x :: xs).map Prod.snd = t.2 :: (x :: xs).map Prod.snd from rfl]
          rw [serial_cons m t.2 ((x :: xs).map Prod.snd) (by simp)]
          rw [ih']
          have ht1 : t.1 = m := h t (by simp)
          rw [show tokStrM t = tokStr t.1 t.2 from rfl, ht1]

theorem serial_as_serialM (m : Char) (bs : List Bool) :
    serial m bs = serialM (bs.map (fun b => (m, b))) := by
  have h := serialM_const (bs.map (fun b => (m, b))) m (by
    intro t ht
    obtain ⟨b, hb, rfl⟩ := List.mem_map.mp ht
    rfl)
  rw [h, List.map_map]
  rw [show (Prod.snd ∘ fun b : Bool => (m, b)) = id from rfl, List.map_id]

theorem serialM_length (ts : List Tok) : ts.length ≤ (serialM ts).length := by
  induction ts with
  | nil => simp [serialM]
  | cons t rest ih =>
      cases rest with
      | nil =>
          cases t with
          | mk m b => cases b <;> simp [serialM, tokStrM, tokStr]
      | cons x xs =>
          rw [serialM_cons t (x :: xs) (by simp)]
          have h1 : 1 ≤ (tokStrM t).length := by
            cases t with
            | mk m b => cases b <;> simp [tokStrM, tokStr]
          simp only [List.length_append, List.length_cons] at ih ⊢
          omega

/-! ### Splitting a serialized sequence at the separators -/

theorem pySplitU_underscore (s : Str) : pySplitU ('_' :: s) = [] :: pySplitU s := by
  conv_lhs => unfold pySplitU
  rw [if_pos (by decide)]

theorem pySplitU_cons_ne (c : Char) (s : Str) (h : (c == '_') = false) :
    pySplitU (c :: s)
      = match pySplitU s with
        | [] => [[c]]
        | t :: ts => (c :: t) :: ts := by
  conv_lhs => unfold pySplitU
  rw [if_neg (by simp [h])]

theorem pySplitU_tok (t : Tok) (hm : t.1.isAlpha = true) (X : Str) :
    pySplitU (tokStrM t ++ '_' :: X) = tokStrM t :: pySplitU X := by
  cases t with
  | mk m b =>
      have hm' : m.isAlpha = true := hm
      have hmu : (m == '_') = false := by
        simpa [beq_iff_eq] using alpha_ne_underscore hm'
      have hpu : (('+' : Char) == '_') = false := by decide
      have h1 : pySplitU ('_' :: X) = [] :: pySplitU X := pySplitU_underscore X
      cases b
      · show pySplitU (m :: '_' :: X) = [m] :: pySplitU X
        rw [pySplitU_cons_ne m ('_' :: X) hmu, h1]
      · show pySplitU (m :: '+' :: '_' :: X) = [m, '+'] :: pySplitU X
        have h2 : pySplitU ('+' :: '_' :: X) = ['+'] :: pySplitU X := by
          rw [pySplitU_cons_ne '+' ('_' :: X) hpu, h1]
        rw [pySplitU_cons_ne m ('+' :: '_' :: X) hmu, h2]

theorem pySplitU_tok_single (t : Tok) (hm : t.1.isAlpha = true) :
    pySplitU (tokStrM t) = [tokStrM t] := by
  cases t with
  | mk m b =>
      have hm' : m.isAlpha = true := hm
      have hmu : (m == '_') = false := by
        simpa [beq_iff_eq] using alpha_ne_underscore hm'
      have hpu : (('+' : Char) == '_') = false := by decide
      cases b
      · show pySplitU [m] = [[m]]
        rw [pySplitU_cons_ne m [] hmu, show pySplitU ([] : Str) = [[]] from rfl]
      · show pySplitU [m, '+'] = [[m, '+']]
        have h2 : pySplitU ['+'] = [['+']] := by
          rw [pySplitU_cons_ne '+' [] hpu, show pySplitU ([] : Str) = [[]] from rfl]
        rw [pySplitU_cons_ne m ['+'] hmu, h2]

theorem pySplitU_serialM : ∀ (ts : List Tok), ts ≠ [] →
    (∀ t ∈ ts, t.1.isAlpha = true) →
    pySplitU (serialM ts) = ts.map tokStrM := by
  intro ts
  induction ts with
  | nil => intro h _; exact absurd rfl h
  | cons t rest ih =>
      intro _ h
      cases rest with
      | nil => exact pySplitU_tok_single t (h t (by simp))
      | cons x xs =>
          rw [serialM_cons t (x :: xs) (by simp)]
          rw [pySplitU_tok t (h t (by simp)) _]
          rw [ih (by simp) (fun u hu => h u (List.mem_cons_of_mem _ hu))]
          rfl

theorem pySplitU_serialM_concat : ∀ (ts : List Tok), ts ≠ [] →
    (∀ t ∈ ts, t.1.isAlpha = true) →
    pySplitU (serialM ts ++ ['_']) = ts.map tokStrM ++ [[]] := by
  intro ts
  induction ts with
  | nil => intro h _; exact absurd rfl h
  | cons t rest ih =>
      intro _ h
      cases rest with
      | nil =>
          show pySplitU (tokStrM t ++ ['_']) = [tokStrM t, []]
          exact pySplitU_tok t (h t (by simp)) []
      | cons x xs =>
          rw [serialM_cons t (x :: xs) (by simp)]
          rw [show (tokStrM t ++ '_' :: serialM (x :: xs)) ++ ['_']
              = tokStrM t ++ '_' :: (serialM (x :: xs) ++ ['_']) from by simp]
          rw [pySplitU_tok t (h t (by simp)) _]
          rw [ih (by simp) (fun u hu => h u (List.mem_cons_of_mem _ hu))]
          rfl

/-! ### The organized form of a product term -/

theorem hfold_eq (mode : Char) :
    ∀ (pieces : List Str) (acc : Str),
      pieces.foldl
        (fun organized operator =>
          if operator.contains mode then organized ++ operator ++ ['_'] else organized)
        acc
      = acc ++ (pieces.filter (fun op => op.contains mode)).flatMap
          (fun op => op ++ ['_']) := by
  intro pieces
  induction pieces with
  | nil => intro acc; simp
  | cons p ps ih =>
      intro acc
      rw [List.foldl_cons]
      by_cases hp : (p.contains mode) = true
      · rw [if_pos hp, ih]
        have hp' : mode ∈ p := by simpa [List.contains] using hp
        have hfc : List.filter (fun op => List.contains op mode) (p :: ps)
            = p :: List.filter (fun op => List.contains op mode) ps := by
          rw [List.filter_cons]
          simp [hp']
        rw [hfc, List.flatMap_cons]
        simp [List.append_assoc]
      · rw [if_neg hp, ih]
        have hp' : mode ∉ p := by simpa [List.contains] using hp
        have hfc : List.filter (fun op => List.contains op mode) (p :: ps)
            = List.filter (fun op => List.contains op mode) ps := by
          rw [List.filter_cons]
          simp [hp']
        rw [hfc]

theorem hspace_fold_eq (term : Str) :
    ∀ (modes : List Char) (acc : Str),
      modes.foldl
        (fun organized mode =>
          (pySplitU term).foldl
            (fun organized operator =>
              if operator.contains mode then organized ++ operator ++ ['_'] else organized)
            organized)
        acc
      = acc ++ modes.flatMap
          (fun mode =>
            ((pySplitU term).filter (fun op => op.contains mode)).flatMap
              (fun op => op ++ ['_'])) := by
  intro modes
  induction modes with
  | nil => intro acc; simp
  | cons m ms ih =>
      intro acc
      rw [List.foldl_cons, hfold_eq m (pySplitU term) acc, ih, List.flatMap_cons,
        List.append_assoc]

/-- `hspace_organize` written as a flat traversal of the mode list. -/
theorem hspace_organize_eq (term : Str) :
    hspace_organize term
      = ((find_modes [(term, oneCC)]).flatMap
          (fun mode =>
            ((pySplitU term).filter (fun op => op.contains mode)).flatMap
              (fun op => op ++ ['_']))).dropLast := by
  have he : hspace_organize term
      = ((find_modes [(term, oneCC)]).foldl
          (fun organized mode =>
            (pySplitU term).foldl
              (fun organized operator =>
                if operator.contains mode then organized ++ operator ++ ['_'] else organized)
              organized)
          []).dropLast := rfl
  rw [he, hspace_fold_eq term (find_modes [(term, oneCC)]) []]
  rfl

theorem contains_tokStrM (m : Char) (hm : m.isAlpha = true) (t : Tok) :
    ((tokStrM t).contains m) = (t.1 == m) := by
  cases t with
  | mk c b =>
      have hmp : m ≠ '+' := alpha_ne_plus hm
      cases b
      · by_cases h : c = m
        · subst h; simp [tokStrM, tokStr, List.contains]
        · simp [tokStrM, tokStr, List.contains, h, Ne.symm h]
      · by_cases h : c = m
        · subst h; simp [tokStrM, tokStr, List.contains, hmp]
        · simp [tokStrM, tokStr, List.contains, h, Ne.symm h, hmp]

theorem filter_contains_map (m : Char) (hm : m.isAlpha = true) (ts : List Tok) :
    ((ts.map tokStrM).filter (fun op => op.contains m))
      = (ts.filter (fun t => t.1 == m)).map tokStrM := by
  rw [List.filter_map]
  congr 1
  apply List.filter_congr
  intro t _
  show ((tokStrM t).contains m) = (t.1 == m)
  exact contains_tokStrM m hm t

theorem flatMap_map_append (f : Tok → Str) :
    ∀ (l : List Tok),
      (l.map f).flatMap (fun op => op ++ ['_']) = l.flatMap (fun t => f t ++ ['_']) := by
  intro l
  induction l with
  | nil => rfl
  | cons a l ih => rw [List.map_cons, List.flatMap_cons, List.flatMap_cons, ih]

theorem flatMap_tokStr_underscore : ∀ (g : List Tok), g ≠ [] →
    g.flatMap (fun t => tokStrM t ++ ['_']) = serialM g ++ ['_'] := by
  intro g
  induction g with
  | nil => intro h; exact absurd rfl h
  | cons t rest ih =>
      intro _
      cases rest with
      | nil => simp [serialM]
      | cons x xs =>
          rw [List.flatMap_cons, ih (by simp), serialM_cons t (x :: xs) (by simp)]
          simp

/-- The heart of the `hspace_organize` characterization: given that the
split of `S` filters down to the per-mode groups of `ts` and that the
alphabetic characters of `S` are the mode letters of `ts`, organizing `S`
serializes the regrouped token sequence. -/
theorem hspace_organize_serialM (S : Str) (ts : List Tok)
    (halpha : ∀ t ∈ ts, t.1.isAlpha = true) (hne : ts ≠ [])
    (hfilter : ∀ m, m.isAlpha = true →
      ((pySplitU S).filter (fun op => op.contains m))
        = (ts.filter (fun t => t.1 == m)).map tokStrM)
    (hmem : ∀ c, c.isAlpha = true → (c ∈ S ↔ ∃ t ∈ ts, t.1 = c)) :
    hspace_organize S = serialM (groupToks (find_modes [(S, oneCC)]) ts) := by
  have hspec := find_modes_spec [(S, oneCC)]
  have hmodes : ∀ c, c ∈ find_modes [(S, oneCC)] ↔ c.isAlpha = true ∧ ∃ t ∈ ts, t.1 = c := by
    intro c
    rw [hspec.2.2 c]
    constructor
    · rintro ⟨ha, kv, hkv, hc⟩
      simp only [List.mem_singleton] at hkv
      subst hkv
      exact ⟨ha, (hmem c ha).mp hc⟩
    · rintro ⟨ha, ht⟩
      exact ⟨ha, (S, oneCC), by simp, (hmem c ha).mpr ht⟩
  have key : ∀ (ms : List Char), (∀ m ∈ ms, m.isAlpha = true) →
      ms.flatMap
        (fun mode =>
          ((pySplitU S).filter (fun op => op.contains mode)).flatMap
            (fun op => op ++ ['_']))
      = (ms.flatMap (fun m => ts.filter (fun t => t.1 == m))).flatMap
          (fun t => tokStrM t ++ ['_']) := by
    intro ms
    induction ms with
    | nil => intro _; rfl
    | cons m ms ih =>
        intro hall
        rw [List.flatMap_cons, List.flatMap_cons, List.flatMap_append]
        rw [hfilter m (hall m (by simp))]
        rw [flatMap_map_append tokStrM]
        rw [ih (fun u hu => hall u (List.mem_cons_of_mem _ hu))]
  have halls : ∀ m ∈ find_modes [(S, oneCC)], m.isAlpha = true := by
    intro m hmm
    exact ((hmodes m).mp hmm).1
  have hgne : groupToks (find_modes [(S, oneCC)]) ts ≠ [] := by
    obtain ⟨t, htm⟩ := List.exists_mem_of_ne_nil ts hne
    have hta : t.1.isAlpha = true := halpha t htm
    have htmode : t.1 ∈ find_modes [(S, oneCC)] :=
      (hmodes t.1).mpr ⟨hta, t, htm, rfl⟩
    intro hg
    have hmemg : t ∈ groupToks (find_modes [(S, oneCC)]) ts := by
      unfold groupToks
      rw [List.mem_flatMap]
      exact ⟨t.1, htmode, by rw [List.mem_filter]; exact ⟨htm, by simp⟩⟩
    rw [hg] at hmemg
    exact absurd hmemg (by simp)
  rw [hspace_organize_eq S, key (find_modes [(S, oneCC)]) halls]
  rw [show (find_modes [(S, oneCC)]).flatMap (fun m => ts.filter (fun t => t.1 == m))
      = groupToks (find_modes [(S, oneCC)]) ts from rfl]
  rw [flatMap_tokStr_underscore _ hgne, List.dropLast_concat]

/-- Organizing the concatenation of two serialized keys with a `"_"`
separator regroups their tokens mode by mode. -/
theorem hspace_glue (ts1 ts2 : List Tok)
    (h1 : ∀ t ∈ ts1, t.1.isAlpha = true) (h2 : ∀ t ∈ ts2, t.1.isAlpha = true)
    (hne : ts1 ≠ [] ∨ ts2 ≠ []) :
    hspace_organize (serialM ts1 ++ '_' :: serialM ts2)
      = serialM (groupToks
          (find_modes [(serialM ts1 ++ '_' :: serialM ts2, oneCC)]) (ts1 ++ ts2)) := by
  have halpha : ∀ t ∈ ts1 ++ ts2, t.1.isAlpha = true := by
    intro t ht
    rcases List.mem_append.mp ht with h' | h'
    · exact h1 t h'
    · exact h2 t h'
  have htsne : ts1 ++ ts2 ≠ [] := by
    intro hc
    obtain ⟨e1, e2⟩ := List.append_eq_nil.mp hc
    rcases hne with h' | h'
    · exact h' e1
    · exact h' e2
  have hmem : ∀ c, c.isAlpha = true →
      (c ∈ serialM ts1 ++ '_' :: serialM ts2 ↔ ∃ t ∈ ts1 ++ ts2, t.1 = c) := by
    intro c hc
    have hcu : c ≠ '_' := alpha_ne_underscore hc
    rw [List.mem_append, List.mem_cons]
    rw [mem_serialM c hc ts1, mem_serialM c hc ts2]
    constructor
    · rintro (⟨t, ht, rfl⟩ | (h' | ⟨t, ht, rfl⟩))
      · exact ⟨t, List.mem_append.mpr (Or.inl ht), rfl⟩
      · exact absurd h' hcu
      · exact ⟨t, List.mem_append.mpr (Or.inr ht), rfl⟩
    · rintro ⟨t, ht, rfl⟩
      rcases List.mem_append.mp ht with h' | h'
      · exact Or.inl ⟨t, h', rfl⟩
      · exact Or.inr (Or.inr ⟨t, h', rfl⟩)
  have hfilter : ∀ m, m.isAlpha = true →
      ((pySplitU (serialM ts1 ++ '_' :: serialM ts2)).filter (fun op => op.contains m))
        = ((ts1 ++ ts2).filter (fun t => t.1 == m)).map tokStrM := by
    intro m hm
    rcases ts1 with _ | ⟨a, as⟩
    · have hts2 : ts2 ≠ [] := by simpa using htsne
      rw [show serialM ([] : List Tok) ++ '_' :: serialM ts2
          = '_' :: serialM ts2 from rfl]
      rw [pySplitU_underscore, pySplitU_serialM ts2 hts2 h2]
      have hfc : List.filter (fun op => List.contains op m) (([] : Str) :: ts2.map tokStrM)
          = List.filter (fun op => List.contains op m) (ts2.map tokStrM) := by
        rw [List.filter_cons]
        simp
      rw [hfc, filter_contains_map m hm ts2, List.nil_append]
    · rcases ts2 with _ | ⟨b, bs⟩
      · rw [show serialM (a :: as) ++ '_' :: serialM ([] : List Tok)
            = serialM (a :: as) ++ ['_'] from rfl]
        rw [pySplitU_serialM_concat (a :: as) (by simp) h1]
        rw [List.filter_append]
        have hfc : List.filter (fun op => List.contains op m) [([] : Str)] = [] := by
          simp
        rw [hfc, List.append_nil, filter_contains_map m hm (a :: as), List.append_nil]
      · rw [← serialM_append (a :: as) (b :: bs) (by simp) (by simp)]
        rw [pySplitU_serialM ((a :: as) ++ (b :: bs)) (by simp) (by
          intro t ht
          rcases List.mem_append.mp ht with h' | h'
          · exact h1 t h'
          · exact h2 t h')]
        rw [filter_contains_map m hm ((a :: as) ++ (b :: bs))]
  exact hspace_organize_serialM _ (ts1 ++ ts2) halpha htsne hfilter hmem

/-! ### Splitting the organized string back into its per-mode pieces -/

theorem findSub_head_single (c : Char) (Y : Str) : findSub (c :: Y) [c] = some 0 :=
  findSub_of_pre _ _ (by simp [isPre_cons_cons, isPre_nil])

theorem findSub_append_single (c : Char) :
    ∀ (X Y : Str), c ∉ X →
      findSub (X ++ Y) [c] = (findSub Y [c]).map (fun n => n + X.length) := by
  intro X
  induction X with
  | nil =>
      intro Y _
      rw [List.nil_append]
      rcases findSub Y [c] with _ | n <;> simp
  | cons x X' ih =>
      intro Y hc
      have hcx : ¬(c = x) := fun h => hc (by simp [h])
      rw [List.cons_append]
      rw [findSub_cons_of_not_pre x (X' ++ Y) [c]
        (by simp [isPre_cons_cons, beq_iff_eq, hcx])]
      rw [ih Y (fun h => hc (by simp [h]))]
      rcases findSub Y [c] with _ | n
      · simp
      · simp only [Option.map_some', List.length_cons]
        refine congrArg some ?_
        omega

theorem splitStep_some (acc : List Str) (s : Str) (mode : Char) (idx : Nat)
    (h : findSub s [mode] = some idx) :
    splitStep (acc, s) mode
      = some (acc ++ [clean_string (s.take idx)], clean_string (s.drop idx)) := by
  have he : splitStep (acc, s) mode
      = match findSub s [mode] with
        | none => none
        | some idx =>
            some (acc ++ [clean_string (s.take idx)], clean_string (s.drop idx)) := rfl
  rw [he, h]

/-- `split_modes` is the peeling fold (with step `splitStep`) followed by
the removal of the empty leading piece. -/
theorem split_modes_eq (s : Str) :
    split_modes s
      = ((find_modes [(s, oneCC)]).foldlM splitStep (([] : List Str), s)).bind
          (fun st =>
            if (st.1 ++ [clean_string st.2]).contains [] then
              some ((st.1 ++ [clean_string st.2]).erase [])
            else none) := rfl

theorem flatMap_map {α β γ : Type} (f : α → β) (g : β → List γ) (l : List α) :
    (l.map f).flatMap g = l.flatMap (fun x => g (f x)) := by
  induction l with
  | nil => rfl
  | cons a l ih => rw [List.map_cons, List.flatMap_cons, List.flatMap_cons, ih]

/-- The peeling loop of `split_modes`, run from a state whose string is
the serialization of a previous group followed by the remaining groups:
each mode in turn finds its group at the front of the remaining string and
peels off the group before it. -/
theorem peelAux :
    ∀ (gs : List (Char × List Tok)) (pm : Char) (prev : List Tok) (acc : List Str),
      prev ≠ [] →
      (∀ t ∈ prev, t.1 = pm) →
      pm.isAlpha = true →
      (∀ p ∈ gs, p.1.isAlpha = true ∧ p.2 ≠ [] ∧ (∀ t ∈ p.2, t.1 = p.1)) →
      List.Chain' (fun a b => a ≠ b) (pm :: gs.map Prod.fst) →
      ∃ st, (gs.map Prod.fst).foldlM splitStep
          (acc, serialM (prev ++ gs.flatMap Prod.snd)) = some st
        ∧ st.1 ++ [clean_string st.2]
            = acc ++ (prev :: gs.map Prod.snd).map serialM := by
  intro gs
  induction gs with
  | nil =>
      intro pm prev acc hprevne huni hpm _ _
      refine ⟨(acc, serialM (prev ++ ([] : List (Char × List Tok)).flatMap Prod.snd)),
        rfl, ?_⟩
      have halpha : ∀ t ∈ prev, t.1.isAlpha = true := fun t ht => by
        rw [huni t ht]; exact hpm
      show acc ++ [clean_string (serialM (prev ++ ([] : List (Char × List Tok)).flatMap
        Prod.snd))] = _
      rw [show ([] : List (Char × List Tok)).flatMap Prod.snd = [] from rfl]
      rw [List.append_nil]
      rw [clean_serialM prev halpha]
      rfl
  | cons pg rest ih =>
      rcases pg with ⟨m, g⟩
      intro pm prev acc hprevne huni hpm hgs hch
      have hgm : ∀ t ∈ g, t.1 = m := (hgs (m, g) (by simp)).2.2
      have hma : m.isAlpha = true := (hgs (m, g) (by simp)).1
      have hgne : g ≠ [] := (hgs (m, g) (by simp)).2.1
      have hch' : pm ≠ m ∧ List.Chain' (fun a b => a ≠ b) (m :: rest.map Prod.fst) :=
        List.chain'_cons.mp (by simpa using hch)
      have hprevalpha : ∀ t ∈ prev, t.1.isAlpha = true := fun t ht => by
        rw [huni t ht]; exact hpm
      obtain ⟨t0, g', rfl⟩ : ∃ t0 g', g = t0 :: g' := by
        cases g with
        | nil => exact absurd rfl hgne
        | cons a b => exact ⟨a, b, rfl⟩
      have htailalpha : ∀ t ∈ (t0 :: g') ++ rest.flatMap Prod.snd, t.1.isAlpha = true := by
        intro t ht
        rcases List.mem_append.mp ht with h' | h'
        · rw [hgm t h']; exact hma
        · obtain ⟨p, hp, htp⟩ := List.mem_flatMap.mp h'
          rw [(hgs p (List.mem_cons_of_mem _ hp)).2.2 t htp]
          exact (hgs p (List.mem_cons_of_mem _ hp)).1
      obtain ⟨r, hr⟩ := serialM_head t0 (g' ++ rest.flatMap Prod.snd)
      have hser : serialM (prev ++ ((m, t0 :: g') :: rest).flatMap Prod.snd)
          = (serialM prev ++ ['_']) ++ serialM ((t0 :: g') ++ rest.flatMap Prod.snd) := by
        rw [show ((m, t0 :: g') :: rest).flatMap Prod.snd
            = (t0 :: g') ++ rest.flatMap Prod.snd from List.flatMap_cons ..]
        rw [serialM_append prev ((t0 :: g') ++ rest.flatMap Prod.snd) hprevne (by simp)]
        simp
      have hmX : m ∉ serialM prev ++ ['_'] := by
        intro hmem
        rcases List.mem_append.mp hmem with h' | h'
        · obtain ⟨t, ht, ht1⟩ := (mem_serialM m hma prev).mp h'
          exact hch'.1 (by rw [← huni t ht, ht1])
        · simp only [List.mem_singleton] at h'
          exact alpha_ne_underscore hma h'
      have hz : serialM ((t0 :: g') ++ rest.flatMap Prod.snd) = m :: r := by
        rw [show (t0 :: g') ++ rest.flatMap Prod.snd
            = t0 :: (g' ++ rest.flatMap Prod.snd) from rfl]
        rw [hr]
        rw [hgm t0 (by simp)]
      have hfind : findSub (serialM (prev ++ ((m, t0 :: g') :: rest).flatMap Prod.snd)) [m]
          = some (0 + (serialM prev ++ ['_']).length) := by
        rw [hser, findSub_append_single m (serialM prev ++ ['_']) _ hmX, hz,
          findSub_head_single]
        rfl
      have hstep : splitStep (acc, serialM (prev ++ ((m, t0 :: g') :: rest).flatMap Prod.snd)) m
          = some (acc ++ [serialM prev], serialM ((t0 :: g') ++ rest.flatMap Prod.snd)) := by
        rw [splitStep_some acc _ m _ hfind]
        rw [hser]
        rw [show 0 + (serialM prev ++ ['_']).length
            = (serialM prev ++ ['_']).length from by omega]
        rw [List.take_left, List.drop_left]
        rw [clean_serialM_underscore prev hprevalpha]
        rw [clean_serialM _ htailalpha]
      obtain ⟨st, hfold, hsplit⟩ := ih m (t0 :: g') (acc ++ [serialM prev])
        (by simp) hgm hma
        (fun p hp => hgs p (List.mem_cons_of_mem _ hp))
        hch'.2
      refine ⟨st, ?_, ?_⟩
      · rw [show ((m, t0 :: g') :: rest).map Prod.fst = m :: rest.map Prod.fst from rfl]
        rw [List.foldlM_cons, hstep]
        simp only [bind, Option.bind]
        exact hfold
      · rw [hsplit]
        simp [List.append_assoc]

/-- `split_modes` on the serialized regrouped sequence succeeds and
returns exactly the per-mode serialized groups. -/
theorem split_modes_grouped (modes : List Char) (ts : List Tok)
    (halpha : ∀ m ∈ modes, m.isAlpha = true)
    (halphats : ∀ t ∈ ts, t.1.isAlpha = true)
    (hgne : ∀ m ∈ modes, ts.filter (fun t => t.1 == m) ≠ [])
    (hch : List.Chain' (fun a b => a ≠ b) modes)
    (hfm : find_modes [(serialM (groupToks modes ts), oneCC)] = modes) :
    split_modes (serialM (groupToks modes ts))
      = some (modes.map (fun m => serialM (ts.filter (fun t => t.1 == m)))) := by
  rw [split_modes_eq, hfm]
  cases modes with
  | nil => rfl
  | cons m0 ms =>
      obtain ⟨t0, g', hg0⟩ : ∃ t0 g', ts.filter (fun t => t.1 == m0) = t0 :: g' := by
        rcases hf : ts.filter (fun t => t.1 == m0) with _ | ⟨a, b⟩
        · exact absurd hf (hgne m0 (by simp))
        · exact ⟨a, b, hf⟩
      have hgm0 : ∀ t ∈ ts.filter (fun t => t.1 == m0), t.1 = m0 := by
        intro t ht
        simpa [beq_iff_eq] using (List.mem_filter.mp ht).2
      have hm0a : m0.isAlpha = true := halpha m0 (by simp)
      have hmapfst : (ms.map (fun m => (m, ts.filter (fun t => t.1 == m)))).map Prod.fst
          = ms := by
        rw [List.map_map]
        rw [show (Prod.fst ∘ fun m => (m, ts.filter (fun t => t.1 == m))) = id from rfl]
        rw [List.map_id]
      have hflat : (ms.map (fun m => (m, ts.filter (fun t => t.1 == m)))).flatMap Prod.snd
          = ms.flatMap (fun m => ts.filter (fun t => t.1 == m)) := by
        rw [flatMap_map]
      have hgroup : groupToks (m0 :: ms) ts
          = (ts.filter (fun t => t.1 == m0))
            ++ (ms.map (fun m => (m, ts.filter (fun t => t.1 == m)))).flatMap Prod.snd := by
        unfold groupToks
        rw [List.flatMap_cons, hflat]
      have hgroupflat : groupToks (m0 :: ms) ts
          = (t0 :: g') ++ (ms.map (fun m => (m, ts.filter (fun t => t.1 == m)))).flatMap
              Prod.snd := by
        rw [hgroup, hg0]
      obtain ⟨r, hr⟩ := serialM_head t0
        (g' ++ (ms.map (fun m => (m, ts.filter (fun t => t.1 == m)))).flatMap Prod.snd)
      have ht01 : t0.1 = m0 := hgm0 t0 (by rw [hg0]; simp)
      have hzz : serialM (groupToks (m0 :: ms) ts) = m0 :: r := by
        rw [hgroupflat]
        rw [show (t0 :: g')
              ++ (ms.map (fun m => (m, ts.filter (fun t => t.1 == m)))).flatMap Prod.snd
            = t0 :: (g'
              ++ (ms.map (fun m => (m, ts.filter (fun t => t.1 == m)))).flatMap Prod.snd)
          from rfl]
        rw [hr, ht01]
      have hheadfind : findSub (serialM (groupToks (m0 :: ms) ts)) [m0] = some 0 := by
        rw [hzz, findSub_head_single]
      have halltoks : ∀ t ∈ groupToks (m0 :: ms) ts, t.1.isAlpha = true := by
        intro t ht
        unfold groupToks at ht
        obtain ⟨mm, hmm, htf⟩ := List.mem_flatMap.mp ht
        exact halphats t (List.mem_filter.mp htf).1
      have hstep0 : splitStep (([] : List Str), serialM (groupToks (m0 :: ms) ts)) m0
          = some ([([] : Str)], serialM (groupToks (m0 :: ms) ts)) := by
        rw [splitStep_some _ _ _ 0 hheadfind]
        rw [List.take_zero, List.drop_zero]
        rw [show clean_string ([] : Str) = [] from rfl]
        rw [clean_serialM _ halltoks]
        rfl
      obtain ⟨st, hfold, hsplit⟩ := peelAux
        (ms.map (fun m => (m, ts.filter (fun t => t.1 == m))))
        m0 (ts.filter (fun t => t.1 == m0)) [([] : Str)]
        (by rw [hg0]; simp)
        hgm0 hm0a
        (by
          intro p hp
          obtain ⟨mm, hmm, rfl⟩ := List.mem_map.mp hp
          refine ⟨halpha mm (List.mem_cons_of_mem _ hmm),
            hgne mm (List.mem_cons_of_mem _ hmm), ?_⟩
          intro t ht
          simpa [beq_iff_eq] using (List.mem_filter.mp ht).2)
        (by rw [hmapfst]; exact hch)
      rw [hmapfst, ← hgroup] at hfold
      rw [List.foldlM_cons, hstep0]
      simp only [bind, Option.bind]
      rw [hfold]
      simp only [Option.some_bind]
      rw [hsplit]
      have hcont : ((([([] : Str)])
          ++ ((ts.filter (fun t => t.1 == m0))
              :: (ms.map (fun m => (m, ts.filter (fun t => t.1 == m)))).map Prod.snd).map
            serialM).contains ([] : Str)) = true := by
        simp [List.contains]
      rw [if_pos hcont]
      rw [show ([([] : Str)])
            ++ ((ts.filter (fun t => t.1 == m0))
              :: (ms.map (fun m => (m, ts.filter (fun t => t.1 == m)))).map Prod.snd).map
              serialM
          = ([] : Str) :: ((ts.filter (fun t => t.1 == m0))
              :: (ms.map (fun m => (m, ts.filter (fun t => t.1 == m)))).map Prod.snd).map
              serialM from rfl]
      rw [List.erase_cons_head]
      rw [List.map_cons, List.map_map, List.map_map]
      rfl

/-! ### Well-formedness of the dictionaries produced by the engine -/

theorem mem_keys_mult_step (acc : Dict) (K : Str) (V : CC) :
    ∀ kv ∈ (if keyIn acc K then bumpFirst acc K V else acc ++ [(K, V)]),
      kv.1 ∈ acc.map Prod.fst ∨ kv.1 = K := by
  intro kv hkv
  by_cases h : keyIn acc K
  · rw [if_pos h] at hkv
    refine Or.inl ?_
    have hkeys := keys_bumpFirst acc K V
    rw [← hkeys]
    exact List.mem_map_of_mem Prod.fst hkv
  · rw [if_neg h] at hkv
    rcases List.mem_append.mp hkv with h' | h'
    · exact Or.inl (List.mem_map_of_mem Prod.fst h')
    · refine Or.inr ?_
      simp only [List.mem_singleton] at h'
      rw [h']

theorem mult_inner_WF (p1 : Str × CC) (hp1 : WFkey p1.1) :
    ∀ (d2 : Dict), (∀ kv ∈ d2, WFkey kv.1) →
    ∀ (acc : Dict), (∀ kv ∈ acc, WFkey kv.1) →
    ∀ kv ∈ d2.foldl
        (fun result p2 =>
          if keyIn result (clean_string (p1.1 ++ '_' :: p2.1))
          then bumpFirst result (clean_string (p1.1 ++ '_' :: p2.1)) (p1.2 * p2.2)
          else result ++ [(clean_string (p1.1 ++ '_' :: p2.1), p1.2 * p2.2)])
        acc,
      WFkey kv.1 := by
  intro d2
  induction d2 with
  | nil => intro _ acc hacc kv hkv; exact hacc kv hkv
  | cons p2 d2' ih =>
      intro hd2 acc hacc kv hkv
      rw [List.foldl_cons] at hkv
      refine ih (fun u hu => hd2 u (List.mem_cons_of_mem _ hu)) _ ?_ kv hkv
      intro kv' hkv'
      have hK : WFkey (clean_string (p1.1 ++ '_' :: p2.1)) := by
        obtain ⟨A, hA, hkA⟩ := hp1
        obtain ⟨B, hB, hkB⟩ := hd2 p2 (by simp)
        rw [hkA, hkB, glue2M A B hA hB]
        refine ⟨A ++ B, ?_, rfl⟩
        intro t ht
        rcases List.mem_append.mp ht with h' | h'
        · exact hA t h'
        · exact hB t h'
      rcases mem_keys_mult_step acc (clean_string (p1.1 ++ '_' :: p2.1)) (p1.2 * p2.2)
          kv' hkv' with h' | h'
      · obtain ⟨kv0, hkv0, hkeq⟩ := List.mem_map.mp h'
        rw [← hkeq]
        exact hacc kv0 hkv0
      · rw [h']
        exact hK

theorem mult_dicts_WF (d1 d2 : Dict)
    (h1 : ∀ kv ∈ d1, WFkey kv.1) (h2 : ∀ kv ∈ d2, WFkey kv.1) :
    ∀ kv ∈ multiply_normal_ordered_single_mode_dicts d1 d2, WFkey kv.1 := by
  have key : ∀ (l1 : Dict), (∀ kv ∈ l1, WFkey kv.1) →
      ∀ (acc : Dict), (∀ kv ∈ acc, WFkey kv.1) →
      ∀ kv ∈ l1.foldl
          (fun result p1 =>
            d2.foldl
              (fun result p2 =>
                if keyIn result (clean_string (p1.1 ++ '_' :: p2.1))
                then bumpFirst result (clean_string (p1.1 ++ '_' :: p2.1)) (p1.2 * p2.2)
                else result ++ [(clean_string (p1.1 ++ '_' :: p2.1), p1.2 * p2.2)])
              result)
          acc,
        WFkey kv.1 := by
    intro l1
    induction l1 with
    | nil => intro _ acc hacc kv hkv; exact hacc kv hkv
    | cons p1 l1' ih =>
        intro hl1 acc hacc kv hkv
        rw [List.foldl_cons] at hkv
        refine ih (fun u hu => hl1 u (List.mem_cons_of_mem _ hu)) _ ?_ kv hkv
        intro kv' hkv'
        exact mult_inner_WF p1 (hl1 p1 (by simp)) d2 h2 acc hacc kv' hkv'
  intro kv hkv
  exact key d1 h1 [] (by simp) kv hkv

/-- Every key produced by `normal_ordering` on a serialized single-mode
sequence is a well-formed key. -/
theorem NO_WF (m : Char) (hm : m.isAlpha = true) (fuel : Nat) (toks : List Bool) (c : CC)
    (d : Dict) (h : normal_ordering fuel m (serial m toks) c = some d) :
    ∀ kv ∈ d, WFkey kv.1 := by
  intro kv hkv
  obtain ⟨a, b, hab⟩ := NO_keys_aux m hm fuel toks c d h kv.1
    (List.mem_map_of_mem Prod.fst hkv)
  refine ⟨(List.replicate a true ++ List.replicate b false).map (fun bb => (m, bb)), ?_, ?_⟩
  · intro t ht
    obtain ⟨bb, _, rfl⟩ := List.mem_map.mp ht
    exact hm
  · rw [hab, serial_as_serialM]

/-- The fold over the split single-mode parts succeeds with enough fuel
and produces a dictionary of well-formed keys. -/
theorem partsFold_succeeds (fuel : Nat) :
    ∀ (groups : List (List Tok)),
      (∀ g ∈ groups, g ≠ [] ∧ ∃ m, m.isAlpha = true ∧ ∀ t ∈ g, t.1 = m) →
      (∀ g ∈ groups, invCount (g.map Prod.snd) < fuel) →
      ∀ (temp : Dict), (∀ kv ∈ temp, WFkey kv.1) →
        ∃ temp', (groups.map serialM).foldlM (partsStep fuel) temp = some temp'
          ∧ (∀ kv ∈ temp', WFkey kv.1) := by
  intro groups
  induction groups with
  | nil => intro _ _ temp htemp; exact ⟨temp, rfl, htemp⟩
  | cons g gs ih =>
      intro hg hfuel temp htemp
      obtain ⟨hgne, m, hma, hgm⟩ := hg g (by simp)
      obtain ⟨t0, g', rfl⟩ : ∃ t0 g', g = t0 :: g' := by
        cases g with
        | nil => exact absurd rfl hgne
        | cons a b => exact ⟨a, b, rfl⟩
      obtain ⟨r, hr⟩ := serialM_head t0 g'
      have hhead : (serialM (t0 :: g')).head? = some m := by
        rw [hr, List.head?_cons, hgm t0 (by simp)]
      have hserc : serialM (t0 :: g') = serial m ((t0 :: g').map Prod.snd) :=
        serialM_const _ m hgm
      obtain ⟨d, hd⟩ := NO_succeeds m hma fuel ((t0 :: g').map Prod.snd) oneCC
        (hfuel (t0 :: g') (by simp))
      have hdWF : ∀ kv ∈ d, WFkey kv.1 := NO_WF m hma fuel _ oneCC d hd
      have hstep : partsStep fuel temp (serialM (t0 :: g'))
          = some (if temp == ([] : Dict) then d
                  else multiply_normal_ordered_single_mode_dicts temp d) := by
        unfold partsStep
        rw [hhead]
        simp only [Option.some_bind]
        rw [hserc, hd]
        simp only [Option.some_bind]
      have hnewWF : ∀ kv ∈ (if temp == ([] : Dict) then d
          else multiply_normal_ordered_single_mode_dicts temp d), WFkey kv.1 := by
        by_cases hz : (temp == ([] : Dict)) = true
        · rw [if_pos hz]; exact hdWF
        · rw [if_neg hz]; exact mult_dicts_WF temp d htemp hdWF
      obtain ⟨temp', hfold, hWF⟩ := ih (fun u hu => hg u (List.mem_cons_of_mem _ hu))
        (fun u hu => hfuel u (List.mem_cons_of_mem _ hu)) _ hnewWF
      refine ⟨temp', ?_, hWF⟩
      rw [List.map_cons, List.foldlM_cons, hstep]
      simp only [bind, Option.bind]
      exact hfold

theorem mem_glue_iff (ts1 ts2 : List Tok) (c : Char) (hc : c.isAlpha = true) :
    c ∈ serialM ts1 ++ '_' :: serialM ts2 ↔ ∃ t ∈ ts1 ++ ts2, t.1 = c := by
  have hcu : c ≠ '_' := alpha_ne_underscore hc
  rw [List.mem_append, List.mem_cons]
  rw [mem_serialM c hc ts1, mem_serialM c hc ts2]
  constructor
  · rintro (⟨t, ht, rfl⟩ | (h' | ⟨t, ht, rfl⟩))
    · exact ⟨t, List.mem_append.mpr (Or.inl ht), rfl⟩
    · exact absurd h' hcu
    · exact ⟨t, List.mem_append.mpr (Or.inr ht), rfl⟩
  · rintro ⟨t, ht, rfl⟩
    rcases List.mem_append.mp ht with h' | h'
    · exact Or.inl ⟨t, h', rfl⟩
    · exact Or.inr (Or.inr ⟨t, h', rfl⟩)

/-- Regrouping the tokens does not change the derived mode list. -/
theorem find_modes_grouped (modes : List Char) (ts : List Tok)
    (hsorted : List.Sorted (fun a b => a ≤ b) modes)
    (hnodup : modes.Nodup)
    (hmem : ∀ c, c ∈ modes ↔ c.isAlpha = true ∧ ∃ t ∈ ts, t.1 = c) :
    find_modes [(serialM (groupToks modes ts), oneCC)] = modes := by
  have hspec := find_modes_spec [(serialM (groupToks modes ts), oneCC)]
  refine List.eq_of_perm_of_sorted
    ((List.perm_ext_iff_of_nodup hspec.2.1 hnodup).mpr ?_) hspec.1 hsorted
  intro c
  rw [hspec.2.2 c, hmem c]
  constructor
  · rintro ⟨ha, kv, hkv, hc⟩
    simp only [List.mem_singleton] at hkv
    subst hkv
    obtain ⟨t, htg, ht1⟩ := (mem_serialM c ha _).mp hc
    have htg' : t ∈ modes.flatMap (fun m => ts.filter (fun u => u.1 == m)) := htg
    obtain ⟨mm, hmm, htf⟩ := List.mem_flatMap.mp htg'
    exact ⟨ha, t, (List.mem_filter.mp htf).1, ht1⟩
  · rintro ⟨ha, t, ht, ht1⟩
    refine ⟨ha, (serialM (groupToks modes ts), oneCC), by simp, ?_⟩
    refine (mem_serialM c ha _).mpr ⟨t, ?_, ht1⟩
    show t ∈ modes.flatMap (fun m => ts.filter (fun u => u.1 == m))
    refine List.mem_flatMap.mpr ⟨c, (hmem c).mpr ⟨ha, t, ht, ht1⟩,
      List.mem_filter.mpr ⟨ht, by simp [ht1]⟩⟩

theorem add_expr_dicts_WF (dA dB : Dict)
    (hA : ∀ kv ∈ dA, WFkey kv.1) (hB : ∀ kv ∈ dB, WFkey kv.1) :
    ∀ kv ∈ add_expr_dicts dA dB, WFkey kv.1 := by
  intro kv hkv
  rcases mem_keys_add_expr_dicts dB dA kv.1 (List.mem_map_of_mem Prod.fst hkv)
      with h' | h'
  · obtain ⟨kv0, h0, he⟩ := List.mem_map.mp h'
    rw [← he]
    exact hA kv0 h0
  · obtain ⟨kv0, h0, he⟩ := List.mem_map.mp h'
    rw [← he]
    exact hB kv0 h0

/-- The loop body of `Expression.multiply` succeeds on a pair of
well-formed keys with enough fuel, and keeps the accumulated dictionary
well formed. -/
theorem pairStep_succeeds (fuel : Nat) (p1 p2 : Str × CC)
    (h1 : WFkey p1.1) (h2 : WFkey p2.1)
    (hfuel : (p1.1.length + p2.1.length) * (p1.1.length + p2.1.length) < fuel) :
    ∀ (rd : Dict), (∀ kv ∈ rd, WFkey kv.1) →
      ∃ rd', pairStep fuel p1 rd p2 = some rd' ∧ (∀ kv ∈ rd', WFkey kv.1) := by
  intro rd hrd
  obtain ⟨ts1, hA, hk1⟩ := h1
  obtain ⟨ts2, hB, hk2⟩ := h2
  unfold pairStep
  by_cases hz : (p1.1 == ([] : Str) && p2.1 == ([] : Str)) = true
  · rw [if_pos hz]
    refine ⟨add_expr_dicts rd [([], p1.2 * p2.2)], rfl, ?_⟩
    refine add_expr_dicts_WF rd [([], p1.2 * p2.2)] hrd ?_
    intro kv hkv
    simp only [List.mem_singleton] at hkv
    subst hkv
    exact ⟨[], by simp, rfl⟩
  · rw [if_neg hz]
    have htsne : ts1 ≠ [] ∨ ts2 ≠ [] := by
      by_contra hc
      push_neg at hc
      apply hz
      rw [hk1, hk2, hc.1, hc.2]
      rfl
    have halphats : ∀ t ∈ ts1 ++ ts2, t.1.isAlpha = true := by
      intro t ht
      rcases List.mem_append.mp ht with h' | h'
      · exact hA t h'
      · exact hB t h'
    rw [hk1, hk2]
    rw [hspace_glue ts1 ts2 hA hB htsne]
    have hspec := find_modes_spec [(serialM ts1 ++ '_' :: serialM ts2, oneCC)]
    have hmemts : ∀ c, c ∈ find_modes [(serialM ts1 ++ '_' :: serialM ts2, oneCC)]
        ↔ c.isAlpha = true ∧ ∃ t ∈ ts1 ++ ts2, t.1 = c := by
      intro c
      rw [hspec.2.2 c]
      constructor
      · rintro ⟨ha, kv, hkv, hc⟩
        simp only [List.mem_singleton] at hkv
        subst hkv
        exact ⟨ha, (mem_glue_iff ts1 ts2 c ha).mp hc⟩
      · rintro ⟨ha, ht⟩
        exact ⟨ha, (serialM ts1 ++ '_' :: serialM ts2, oneCC), by simp,
          (mem_glue_iff ts1 ts2 c ha).mpr ht⟩
    have halpham : ∀ m ∈ find_modes [(serialM ts1 ++ '_' :: serialM ts2, oneCC)],
        m.isAlpha = true := fun m hm => ((hmemts m).mp hm).1
    have hgne : ∀ m ∈ find_modes [(serialM ts1 ++ '_' :: serialM ts2, oneCC)],
        (ts1 ++ ts2).filter (fun t => t.1 == m) ≠ [] := by
      intro m hm hnil
      obtain ⟨ha, t, ht, ht1⟩ := (hmemts m).mp hm
      have : t ∈ (ts1 ++ ts2).filter (fun t => t.1 == m) :=
        List.mem_filter.mpr ⟨ht, by simp [ht1]⟩
      rw [hnil] at this
      exact absurd this (by simp)
    have hch : List.Chain' (fun a b => a ≠ b)
        (find_modes [(serialM ts1 ++ '_' :: serialM ts2, oneCC)]) :=
      List.Pairwise.chain' hspec.2.1
    have hfm := find_modes_grouped (find_modes [(serialM ts1 ++ '_' :: serialM ts2, oneCC)])
      (ts1 ++ ts2) hspec.1 hspec.2.1 hmemts
    rw [split_modes_grouped (find_modes [(serialM ts1 ++ '_' :: serialM ts2, oneCC)])
      (ts1 ++ ts2) halpham halphats hgne hch hfm]
    simp only [Option.some_bind]
    have hlents : (ts1 ++ ts2).length ≤ p1.1.length + p2.1.length := by
      rw [hk1, hk2, List.length_append]
      have hl1 := serialM_length ts1
      have hl2 := serialM_length ts2
      omega
    obtain ⟨temp', htemp', hWFt⟩ := partsFold_succeeds fuel
      ((find_modes [(serialM ts1 ++ '_' :: serialM ts2, oneCC)]).map
        (fun m => (ts1 ++ ts2).filter (fun t => t.1 == m)))
      (by
        intro g hg
        obtain ⟨mm, hmm, rfl⟩ := List.mem_map.mp hg
        refine ⟨hgne mm hmm, mm, halpham mm hmm, ?_⟩
        intro t ht
        simpa [beq_iff_eq] using (List.mem_filter.mp ht).2)
      (by
        intro g hg
        obtain ⟨mm, hmm, rfl⟩ := List.mem_map.mp hg
        have hlen : ((ts1 ++ ts2).filter (fun t => t.1 == mm)).length
            ≤ p1.1.length + p2.1.length :=
          le_trans (List.length_filter_le _ _) hlents
        have hinv := invCount_le_sq (((ts1 ++ ts2).filter (fun t => t.1 == mm)).map Prod.snd)
        rw [List.length_map] at hinv
        have hsq := Nat.mul_le_mul hlen hlen
        omega)
      [] (by simp)
    refine ⟨add_expr_dicts rd
      (temp'.map (fun kv => (kv.1, kv.2 * (p1.2 * p2.2)))), ?_, ?_⟩
    · rw [show (find_modes [(serialM ts1 ++ '_' :: serialM ts2, oneCC)]).map
            (fun m => serialM ((ts1 ++ ts2).filter (fun t => t.1 == m)))
          = ((find_modes [(serialM ts1 ++ '_' :: serialM ts2, oneCC)]).map
              (fun m => (ts1 ++ ts2).filter (fun t => t.1 == m))).map serialM
        from (List.map_map ..).symm]
      rw [htemp']
      simp only [Option.some_bind]
    · refine add_expr_dicts_WF rd _ hrd ?_
      intro kv hkv
      obtain ⟨kv0, h0, he⟩ := List.mem_map.mp hkv
      rw [← he]
      exact hWFt kv0 h0

theorem key_len_le (e : Expression) (p : Str × CC) (hp : p ∈ e.expr_dict) :
    p.1.length ≤ keyLenSum e := by
  unfold keyLenSum
  exact List.single_le_sum (by simp) _ (List.mem_map_of_mem _ hp)

/-- `Expression.multiply` succeeds at the fuel bound on well-formed
expressions and returns a well-formed expression. -/
theorem multiply_succeeds (e1 e2 : Expression) (h1 : WFexpr e1) (h2 : WFexpr e2) :
    ∃ e, e1.multiply e2 (fuelBound e1 e2) = some e ∧ WFexpr e := by
  have hpairfuel : ∀ (p1 p2 : Str × CC), p1 ∈ e1.expr_dict → p2 ∈ e2.expr_dict →
      (p1.1.length + p2.1.length) * (p1.1.length + p2.1.length) < fuelBound e1 e2 := by
    intro p1 p2 hp1 hp2
    have ha := key_len_le e1 p1 hp1
    have hb := key_len_le e2 p2 hp2
    have hab : p1.1.length + p2.1.length ≤ keyLenSum e1 + keyLenSum e2 := by omega
    have hsq := Nat.mul_le_mul hab hab
    unfold fuelBound
    omega
  have hinner : ∀ (p1 : Str × CC), p1 ∈ e1.expr_dict →
      ∀ (l2 : Dict), (∀ kv ∈ l2, kv ∈ e2.expr_dict) →
      ∀ (rd : Dict), (∀ kv ∈ rd, WFkey kv.1) →
      ∃ rd', l2.foldlM (pairStep (fuelBound e1 e2) p1) rd = some rd'
        ∧ (∀ kv ∈ rd', WFkey kv.1) := by
    intro p1 hp1 l2
    induction l2 with
    | nil => intro _ rd hrd; exact ⟨rd, rfl, hrd⟩
    | cons p2 l2' ih =>
        intro hl2 rd hrd
        obtain ⟨rd1, hstep, hrd1⟩ := pairStep_succeeds (fuelBound e1 e2) p1 p2
          (h1 p1 hp1) (h2 p2 (hl2 p2 (by simp)))
          (hpairfuel p1 p2 hp1 (hl2 p2 (by simp))) rd hrd
        obtain ⟨rd', hout, hWF⟩ := ih (fun u hu => hl2 u (List.mem_cons_of_mem _ hu))
          rd1 hrd1
        refine ⟨rd', ?_, hWF⟩
        rw [List.foldlM_cons, hstep]
        simp only [bind, Option.bind]
        exact hout
  have houter : ∀ (l1 : Dict), (∀ kv ∈ l1, kv ∈ e1.expr_dict) →
      ∀ (rd : Dict), (∀ kv ∈ rd, WFkey kv.1) →
      ∃ rd', l1.foldlM
          (fun rd p1 => e2.expr_dict.foldlM (pairStep (fuelBound e1 e2) p1) rd) rd
        = some rd' ∧ (∀ kv ∈ rd', WFkey kv.1) := by
    intro l1
    induction l1 with
    | nil => intro _ rd hrd; exact ⟨rd, rfl, hrd⟩
    | cons p1 l1' ih =>
        intro hl1 rd hrd
        obtain ⟨rd1, hstep, hrd1⟩ := hinner p1 (hl1 p1 (by simp)) e2.expr_dict
          (fun _ h => h) rd hrd
        obtain ⟨rd', hout, hWF⟩ := ih (fun u hu => hl1 u (List.mem_cons_of_mem _ hu))
          rd1 hrd1
        refine ⟨rd', ?_, hWF⟩
        rw [List.foldlM_cons, hstep]
        simp only [bind, Option.bind]
        exact hout
  obtain ⟨rd', hrd', hWF⟩ := houter e1.expr_dict (fun _ h => h) [] (by simp)
  refine ⟨⟨rd', List.insertionSort (fun a b => a ≤ b) (e1.modes ++ e2.modes).dedup⟩, ?_, ?_⟩
  · rw [multiply_eq, hrd']
    simp only [Option.some_bind]
  · intro kv hkv
    exact hWF kv hkv

/-- `Expression.multiply` on well-formed expressions: one fixed
well-formed result at every fuel at least the bound. -/
theorem multiply_total (e1 e2 : Expression) (h1 : WFexpr e1) (h2 : WFexpr e2) :
    ∃ e, WFexpr e ∧ ∀ fuel, fuelBound e1 e2 ≤ fuel → e1.multiply e2 fuel = some e := by
  obtain ⟨e, he, hWF⟩ := multiply_succeeds e1 e2 h1 h2
  exact ⟨e, hWF, fun fuel hf => multiply_mono e1 e2 _ fuel hf e he⟩

/-- `power` succeeds on a well-formed expression for some fuel, with a
well-formed result (for every exponent; for `exponent ≤ 1` it is the
input itself). -/
theorem power_succeeds (e : Expression) (he : WFexpr e) (n : Nat) :
    ∃ fuel e', power e n fuel = some e' ∧ WFexpr e' := by
  have key : ∀ (k : Nat), ∃ fuel₀ e', WFexpr e'
      ∧ ∀ fuel, fuel₀ ≤ fuel →
        (List.range k).foldlM (fun result _ => result.multiply e fuel) e = some e' := by
    intro k
    induction k with
    | zero => exact ⟨0, e, he, fun fuel _ => rfl⟩
    | succ k' ih =>
        obtain ⟨fuel₀, e', hWF', hfold⟩ := ih
        obtain ⟨e'', hWF'', hmul⟩ := multiply_total e' e hWF' he
        refine ⟨max fuel₀ (fuelBound e' e), e'', hWF'', ?_⟩
        intro fuel hf
        rw [List.range_succ, List.foldlM_append]
        rw [hfold fuel (le_trans (Nat.le_max_left _ _) hf)]
        simp only [bind, Option.bind]
        rw [List.foldlM_cons]
        rw [hmul fuel (le_trans (Nat.le_max_right _ _) hf)]
        simp only [bind, Option.bind]
        rfl
  obtain ⟨fuel₀, e', hWF', hfold⟩ := key (n - 1)
  exact ⟨fuel₀, e', hfold fuel₀ (Nat.le_refl _), hWF'⟩

/-! ### Well-formedness of `add` and `scalar_multiply` -/

theorem keys_setFirst : ∀ (d : Dict) (k : Str) (v : CC),
    ∀ kv ∈ setFirst d k v, kv.1 ∈ d.map Prod.fst ∨ kv.1 = k := by
  intro d
  induction d with
  | nil =>
      intro k v kv hkv
      simp only [setFirst, List.mem_singleton] at hkv
      subst hkv
      exact Or.inr rfl
  | cons kv0 rest ih =>
      intro k v kv hkv
      unfold setFirst at hkv
      by_cases h : (kv0.1 == k) = true
      · rw [if_pos h] at hkv
        rcases List.mem_cons.mp hkv with h' | h'
        · subst h'; exact Or.inr rfl
        · exact Or.inl (List.mem_cons.mpr (Or.inr (List.mem_map_of_mem Prod.fst h')))
      · rw [if_neg h] at hkv
        rcases List.mem_cons.mp hkv with h' | h'
        · subst h'
          exact Or.inl (List.mem_cons.mpr (Or.inl rfl))
        · rcases ih k v kv h' with h'' | h''
          · exact Or.inl (List.mem_cons.mpr (Or.inr h''))
          · exact Or.inr h''

/-- The union fold shared by `Expression.add` and the module-level `add`
keeps every key one of the input keys. -/
theorem add_fold_keys :
    ∀ (l : Dict) (d : Dict),
      ∀ kv ∈ l.foldl
          (fun d kv => if keyIn d kv.1 then bumpFirst d kv.1 kv.2 else setFirst d kv.1 kv.2)
          d,
        kv.1 ∈ d.map Prod.fst ∨ kv.1 ∈ l.map Prod.fst := by
  intro l
  induction l with
  | nil => intro d kv hkv; exact Or.inl (List.mem_map_of_mem Prod.fst hkv)
  | cons p rest ih =>
      intro d kv hkv
      rw [List.foldl_cons] at hkv
      rcases ih _ kv hkv with h' | h'
      · by_cases h : keyIn d p.1
        · rw [if_pos h, keys_bumpFirst] at h'
          exact Or.inl h'
        · rw [if_neg h] at h'
          obtain ⟨kv0, h0, he⟩ := List.mem_map.mp h'
          rcases keys_setFirst d p.1 p.2 kv0 h0 with h'' | h''
          · exact Or.inl (he ▸ h'')
          · refine Or.inr ?_
            rw [← he, h'']
            simp
      · refine Or.inr ?_
        simp only [List.map_cons, List.mem_cons]
        exact Or.inr h'

theorem setFirst_fold_keys :
    ∀ (l : Dict) (d : Dict) (f : Str × CC → CC),
      ∀ kv ∈ l.foldl (fun d kv => setFirst d kv.1 (f kv)) d,
        kv.1 ∈ d.map Prod.fst ∨ kv.1 ∈ l.map Prod.fst := by
  intro l
  induction l with
  | nil => intro d f kv hkv; exact Or.inl (List.mem_map_of_mem Prod.fst hkv)
  | cons p rest ih =>
      intro d f kv hkv
      rw [List.foldl_cons] at hkv
      rcases ih _ f kv hkv with h' | h'
      · obtain ⟨kv0, h0, he⟩ := List.mem_map.mp h'
        rcases keys_setFirst d p.1 (f p) kv0 h0 with h'' | h''
        · exact Or.inl (he ▸ h'')
        · refine Or.inr ?_
          rw [← he, h'']
          simp
      · refine Or.inr ?_
        simp only [List.map_cons, List.mem_cons]
        exact Or.inr h'

theorem WF_of_key_mem (e : Expression) (he : WFexpr e) (k : Str)
    (hk : k ∈ e.expr_dict.map Prod.fst) : WFkey k := by
  obtain ⟨kv0, h0, hke⟩ := List.mem_map.mp hk
  rw [← hke]
  exact he kv0 h0

/-- The module-level `add` of two well-formed expressions is well
formed. -/
theorem add_WF (e1 e2 : Expression) (h1 : WFexpr e1) (h2 : WFexpr e2) :
    WFexpr (add e1 e2) := by
  intro kv hkv
  have hkv0 : kv ∈ e2.expr_dict.foldl
      (fun d kv => if keyIn d kv.1 then bumpFirst d kv.1 kv.2 else setFirst d kv.1 kv.2)
      (e1.expr_dict.foldl (fun d kv => setFirst d kv.1 kv.2) Expression.empty.expr_dict) :=
    hkv
  have hkv' := add_fold_keys e2.expr_dict
    (e1.expr_dict.foldl (fun d kv => setFirst d kv.1 kv.2) Expression.empty.expr_dict)
    kv hkv0
  rcases hkv' with h' | h'
  · obtain ⟨kv0, h0, he⟩ := List.mem_map.mp h'
    have h0' := setFirst_fold_keys e1.expr_dict Expression.empty.expr_dict
      (fun kv => kv.2) kv0 h0
    rcases h0' with h'' | h''
    · exact absurd h'' (by simp [Expression.empty])
    · rw [← he]
      exact WF_of_key_mem e1 h1 kv0.1 h''
  · exact WF_of_key_mem e2 h2 kv.1 h'

/-- `Expression.add` of two well-formed expressions is well formed (its
body is identical to the module-level `add`). -/
theorem method_add_WF (e1 e2 : Expression) (h1 : WFexpr e1) (h2 : WFexpr e2) :
    WFexpr (e1.add e2) := by
  intro kv hkv
  exact add_WF e1 e2 h1 h2 kv hkv

/-- `scalar_multiply` of a well-formed expression is well formed. -/
theorem scalar_multiply_WF (e : Expression) (he : WFexpr e) (s : CC) :
    WFexpr (scalar_multiply e s) := by
  intro kv hkv
  have hkv0 : kv ∈ e.expr_dict.foldl
      (fun d kv => setFirst d kv.1 (kv.2 * s)) Expression.empty.expr_dict := hkv
  have h' := setFirst_fold_keys e.expr_dict Expression.empty.expr_dict
    (fun kv => kv.2 * s) kv hkv0
  rcases h' with h'' | h''
  · exact absurd h'' (by simp [Expression.empty])
  · exact WF_of_key_mem e he kv.1 h''

/-- C8: on well-formed expressions the algebraic operations never fail.
`multiply` returns one fixed well-formed result at every fuel at least
`fuelBound` (the fuel models Python's recursion depth, so this is
termination plus absence of exceptions); `power` succeeds for every
exponent `n ≥ 1`; inside `multiply`, `split_modes` on the organized
concatenation of any two term keys (not both constant) succeeds — this
is exactly the clause that the `assert idx != -1` always holds and the
`remove("")` always finds the empty string, both modelled as `none`;
`add`, the `add` method and `scalar_multiply` are total functions by
construction and preserve well-formedness. -/
theorem c8_operations_total (e1 e2 : Expression) (h1 : WFexpr e1) (h2 : WFexpr e2) :
    (∃ e, WFexpr e ∧ ∀ fuel, fuelBound e1 e2 ≤ fuel → e1.multiply e2 fuel = some e)
    ∧ (∀ n, 1 ≤ n → ∃ fuel e', power e1 n fuel = some e' ∧ WFexpr e')
    ∧ (∀ p1 ∈ e1.expr_dict, ∀ p2 ∈ e2.expr_dict,
        ¬((p1 : Str × CC).1 = [] ∧ (p2 : Str × CC).1 = []) →
        (split_modes (hspace_organize ((p1 : Str × CC).1 ++ '_' :: (p2 : Str × CC).1))).isSome
          = true)
    ∧ WFexpr (add e1 e2) ∧ WFexpr (e1.add e2) ∧ ∀ s, WFexpr (scalar_multiply e1 s) := by
  refine ⟨multiply_total e1 e2 h1 h2, fun n _ => power_succeeds e1 h1 n, ?_,
    add_WF e1 e2 h1 h2, method_add_WF e1 e2 h1 h2, fun s => scalar_multiply_WF e1 h1 s⟩
  intro p1 hp1 p2 hp2 hne
  have hfuel : (p1.1.length + p2.1.length) * (p1.1.length + p2.1.length)
      < fuelBound e1 e2 := by
    have ha := key_len_le e1 p1 hp1
    have hb := key_len_le e2 p2 hp2
    have hab : p1.1.length + p2.1.length ≤ keyLenSum e1 + keyLenSum e2 := by omega
    have hsq := Nat.mul_le_mul hab hab
    unfold fuelBound
    omega
  obtain ⟨rd', hstep, _⟩ := pairStep_succeeds (fuelBound e1 e2) p1 p2
    (h1 p1 hp1) (h2 p2 hp2) hfuel [] (by simp)
  unfold pairStep at hstep
  rw [if_neg (by
    intro hb
    obtain ⟨hb1, hb2⟩ := Bool.and_eq_true_iff.mp hb
    exact hne ⟨by simpa [beq_iff_eq] using hb1, by simpa [beq_iff_eq] using hb2⟩)] at hstep
  rcases hsp : split_modes (hspace_organize (p1.1 ++ '_' :: p2.1)) with _ | parts
  · rw [hsp] at hstep
    simp [Option.bind] at hstep
  · rfl

/-- Witness for C8: the multiply clause on the expression `a` times
itself, whose single key `"a"` is well formed. -/
theorem c8_witness :
    ∃ e, WFexpr e ∧ ∀ fuel,
      fuelBound ⟨[(['a'], oneCC)], ['a']⟩ ⟨[(['a'], oneCC)], ['a']⟩ ≤ fuel →
      Expression.multiply ⟨[(['a'], oneCC)], ['a']⟩ ⟨[(['a'], oneCC)], ['a']⟩ fuel
        = some e := by
  have hWF : WFexpr (⟨[(['a'], oneCC)], ['a']⟩ : Expression) := by
    intro kv hkv
    have hkv' : kv ∈ [((['a'] : Str), oneCC)] := hkv
    simp only [List.mem_singleton] at hkv'
    subst hkv'
    exact ⟨[('a', false)], by decide, rfl⟩
  exact (c8_operations_total ⟨[(['a'], oneCC)], ['a']⟩ ⟨[(['a'], oneCC)], ['a']⟩ hWF hWF).1

end Ladders
